import Mathlib

/-!
Verification development for the `compose` browser GUI (`src/compose/main.js`)
of the spatial-search repository: a shallow embedding of the JSON data model,
the DOM form tree, the recursive tree builder `createItemsRecursively`, the
form serializer `allInputsToConfigObject`, the schema loader `loadUIConfig`
and the compose request flow, together with theorems checking the
specification's claims about them.

Modelling conventions:
* JavaScript values flowing through the composer are JSON-shaped; they are
  embedded as `JVal`, with an explicit `undef` for JavaScript `undefined`
  (absent properties and array holes) and rationals for numbers.
* The DOM subtree that `createItemsRecursively` builds under `#main` is
  embedded as a pure tree `Dom`.  Only the data the code reads back is kept:
  tag names, `dataset.key`, input values and `<select>` options.  Display
  text (`descriptions.json`, labels, summaries) never influences the
  serialized configuration and is not modelled.
* A `<input type=number>` element stores, after browser value sanitization,
  either the empty string or a floating point literal; its value is embedded
  as `Option Rat` (`none` = empty string).
* The `while (currentEl != main)` walk of `allInputsToConfigObject` reads,
  for each visited ancestor, its `dataset.key`, its tag name, and (for `LI`)
  its `previousSibling` count.  A node's ancestor chain is materialized
  bottom-up as a `List ChainEntry` during a pre-order traversal (the
  document order used by `querySelectorAll`), and the loop body is replayed
  over it unchanged.
-/

/-- JavaScript-style JSON values as manipulated by `main.js`.  `undef`
represents JavaScript `undefined` (absent object properties and array
holes); numbers are modelled as rationals. -/
inductive JVal where
  | null : JVal
  | undef : JVal
  | str : String → JVal
  | num : Rat → JVal
  | arr : List JVal → JVal
  | obj : List (String × JVal) → JVal
  deriving Repr

/-- JavaScript truthiness of a `JVal` (`if (x)`): `undefined`, `null`, the
empty string and `0` are falsy; every array and object is truthy. -/
def truthy : JVal → Bool
  | .null => false
  | .undef => false
  | .str s => !(s == "")
  | .num q => !(q == 0)
  | .arr _ => true
  | .obj _ => true

/-- Property read `o[k]` on an object: first binding wins (JavaScript objects
cannot carry duplicate keys); absent keys read as `undefined`. -/
def objGet (k : String) : List (String × JVal) → JVal
  | [] => .undef
  | (k', v) :: fs => if k' == k then v else objGet k fs

/-- Property write `o[k] = v` on an object: an existing key keeps its
position, a new key is appended (JavaScript property insertion order). -/
def objSet (fs : List (String × JVal)) (k : String) (v : JVal) : List (String × JVal) :=
  match fs with
  | [] => [(k, v)]
  | (k', v') :: rest => if k' == k then (k, v) :: rest else (k', v') :: objSet rest k v

/-- Array element read `a[i]`: out-of-range reads give `undefined`. -/
def arrGet (xs : List JVal) (i : Nat) : JVal := xs.getD i (.undef)

/-- Array element write `a[i] = v`: writing past the end extends the array,
creating holes (`undefined`) for the skipped indices, exactly as a sparse
JavaScript array assignment does. -/
def arrSet (xs : List JVal) (i : Nat) (v : JVal) : List JVal :=
  if i < xs.length then xs.set i v
  else xs ++ List.replicate (i - xs.length) .undef ++ [v]

/-- `val || null` (lines 205 and 210 of `main.js`): a falsy leaf value is
stored as `null`. -/
def valOrNull (v : JVal) : JVal := if truthy v then v else .null

/-- An `<option>` of a `<select>`: its `value`, its display text and whether
it is the selected one. -/
structure SelOpt where
  val : String
  txt : String
  chosen : Bool
  deriving Repr, DecidableEq

/-- The DOM nodes `createItemsRecursively` can place under `#main`.  Generic
container elements (`details`, `div`, `summary`, `ol`, `li`, `button`) carry
their tag, their `dataset.key` (when set) and their children; the three
form-control shapes carry the data `allInputsToConfigObject` reads back. -/
inductive Dom where
  | elt : String → Option String → List Dom → Dom
  | textInput : String → Dom
  | numberInput : Option Rat → Dom
  | selectInput : List SelOpt → Dom
  deriving Repr

/-- `el.tagName` of a modelled node. -/
def Dom.tagOf : Dom → String
  | .elt t _ _ => t
  | .textInput _ => "INPUT"
  | .numberInput _ => "INPUT"
  | .selectInput _ => "SELECT"

/-- `el.dataset.key` of a modelled node (only generic elements carry one). -/
def Dom.keyOf : Dom → Option String
  | .elt _ k _ => k
  | _ => none

/-- `select.value`: the value of the last option whose `selected` flag is
set, else the first option's value, else the empty string. -/
def selectValue (opts : List SelOpt) : String :=
  match (opts.filter (·.chosen)).getLast? with
  | some o => o.val
  | none =>
    match opts.head? with
    | some o => o.val
    | none => ""

/-- The value `allInputsToConfigObject` reads from a form control
(lines 149-152): `el.value` as a string, converted with `Number(val)` for
numeric inputs (`Number("") = 0`).  Container elements carry no value. -/
def inputValue : Dom → Option JVal
  | .textInput s => some (.str s)
  | .numberInput o => some (.num (o.getD 0))
  | .selectInput opts => some (.str (selectValue opts))
  | .elt _ _ _ => none

/-- What the upward DOM walk reads from one visited element: its
`dataset.key`, its tag name, and its position among its parent's children
(the `previousSibling` count computed for `LI` elements). -/
structure ChainEntry where
  key : Option String
  tag : String
  idx : Nat
  deriving Repr, DecidableEq

/-- A segment of the inferred config path: the optional list index `n`
paired with a `dataset.key`, as pushed by `path.push([n, key])`. -/
abbrev Seg := Option Nat × String

/-- One iteration of the `while (currentEl != main)` loop of
`allInputsToConfigObject` (lines 156-173): a keyed element pushes
`[n, key]` and resets `n`; an `LI` element sets `n` to its
`previousSibling` count. -/
def walkStep (st : List Seg × Option Nat) (e : ChainEntry) : List Seg × Option Nat :=
  let st' :=
    match e.key with
    | some k => (st.1 ++ [(st.2, k)], (none : Option Nat))
    | none => st
  (st'.1, if e.tag == "LI" then some e.idx else st'.2)

/-- The whole upward walk over an ancestor chain (listed element-first, the
order the loop visits), starting from `path = []`, `n = null`. -/
def walkUp (chain : List ChainEntry) : List Seg × Option Nat :=
  chain.foldl walkStep ([], none)

/-- `path[path.length - 1][0] = n` (line 181): overwrite the list index of
the final (deepest) segment. -/
def patchLast : List Seg → Nat → List Seg
  | [], _ => []
  | [s], i => [(some i, s.2)]
  | s :: s' :: rest, i => s :: patchLast (s' :: rest) i

/-- Lines 203-211: store the leaf value, either as a plain property
(`currentRes[last] = val || null`) or into a (possibly fresh) array at the
popped index.  Branches that would make JavaScript write a property on a
primitive or on a non-array are modelled as leaving the result unchanged;
they are unreachable for the forms `createItemsRecursively` produces. -/
def leafWrite (res : JVal) (pindex : Option Nat) (last : String) (val : JVal) : JVal :=
  match pindex with
  | none =>
    match res with
    | .obj fs => .obj (objSet fs last (valOrNull val))
    | _ => res
  | some i =>
    match res with
    | .obj fs =>
      let child := objGet last fs
      let child := if truthy child then child else .arr []
      match child with
      | .arr xs => .obj (objSet fs last (.arr (arrSet xs i (valOrNull val))))
      | _ => res
    | _ => res

/-- Lines 184-211: walk down the assembled path, creating `{}` for object
segments and `[]` plus a fresh `{}` element for list segments whenever the
visited slot is falsy, then store the leaf value.  As in `leafWrite`,
branches where JavaScript would write through a primitive are modelled as
no-ops; they are unreachable for built forms. -/
def descendWrite (res : JVal) (segs : List Seg) (pindex : Option Nat) (last : String)
    (val : JVal) : JVal :=
  match segs with
  | [] => leafWrite res pindex last val
  | (pi, sg) :: rest =>
    match pi with
    | none =>
      match res with
      | .obj fs =>
        let child := objGet sg fs
        let child := if truthy child then child else .obj []
        .obj (objSet fs sg (descendWrite child rest pindex last val))
      | _ => res
    | some i =>
      match res with
      | .obj fs =>
        let child := objGet sg fs
        let child := if truthy child then child else .arr []
        match child with
        | .arr xs =>
          let e := arrGet xs i
          let e := if truthy e then e else .obj []
          .obj (objSet fs sg (.arr (arrSet xs i (descendWrite e rest pindex last val))))
        | _ => res
      | _ => res

/-- Process one collected input element (the body of the `for` loop of
`allInputsToConfigObject`): walk up its ancestor chain, reverse the
collected path to parent-first order, patch the deepest index if `n` is
still set, pop the final segment, and write the value into the result.
An empty path (an input with no keyed ancestor) cannot be collected, see
`collectInputs`; it is mapped to the unchanged result. -/
def addInput (res : JVal) (cv : List ChainEntry × JVal) : JVal :=
  let w := walkUp cv.1
  let p := w.1.reverse
  let p :=
    match w.2 with
    | some i => patchLast p i
    | none => p
  match p.getLast? with
  | none => res
  | some (pindex, last) => descendWrite res p.dropLast pindex last cv.2

/-- Collect, in document order, every form control matched by
`#main [data-key] select, #main [data-key] input` together with its
ancestor chain (element first, all strict ancestors below `#main`) and its
read value.  `pchain` is the chain of the parent, `i` the position of the
first listed sibling among its parent's children. -/
def collectInputs (pchain : List ChainEntry) (i : Nat) : List Dom → List (List ChainEntry × JVal)
  | [] => []
  | d :: rest => collectOne pchain i d ++ collectInputs pchain (i + 1) rest
where
  /-- Visit one node: containers recurse into their children; a form control
  is collected iff some ancestor below `#main` carries a `data-key`. -/
  collectOne (pchain : List ChainEntry) (i : Nat) : Dom → List (List ChainEntry × JVal)
  | .elt t k kids => collectInputs (⟨k, t, i⟩ :: pchain) 0 kids
  | d =>
    if pchain.any (·.key.isSome) then
      [(⟨none, Dom.tagOf d, i⟩ :: pchain, (inputValue d).getD .null)]
    else []

/-- `allInputsToConfigObject` (lines 143-214): fold every collected input
into an initially empty result object.  The argument is the list of
children of `#main`. -/
def allInputsToConfigObject (mainKids : List Dom) : JVal :=
  (collectInputs [] 0 mainKids).foldl addInput (.obj [])


/-- An entry of `selects.json`: the pair `[options, default]`, where
`options` is a list of `[value, description]` pairs. -/
abbrev SelCfg := List (String × String) × String

/-- The `selects` global.  It is *mutated* by `createItemsRecursively`
(line 292 pushes a missing option), so it is threaded as state. -/
abbrev SelState := List (String × SelCfg)

/-- `m?.[k]` on a string-keyed configuration map. -/
def assocGet (k : String) : List (String × α) → Option α
  | [] => none
  | (k', v) :: m => if k' == k then some v else assocGet k m

/-- Update the binding of `k` (first occurrence) in a configuration map. -/
def assocSet (k : String) (v : α) : List (String × α) → List (String × α)
  | [] => [(k, v)]
  | (k', v') :: m => if k' == k then (k, v) :: m else (k', v') :: assocSet k v m

/-- `pathToString` (lines 114-118) on an already stringified path: each
element of the `path` array contributes `x?.dataset?.key || "_"`, so keyed
elements contribute their key and numeric entries contribute `"_"`; the
components are joined with `":"`. -/
def pathToString (path : List String) : String := String.intercalate ":" path

/-- The path component an element built for object key `k` contributes:
`dataset.key` is only assigned when `k` is truthy (line 44), so the empty
key reads back as `"_"`. -/
def pathComp (k : String) : String := if k == "" then "_" else k

/-- `createSelect` (lines 65-79): one `<option>` per `[option, description]`
pair, selected iff `option === selected`.  (When several identical options
match, the browser keeps only the last one selected; `selectValue` reads
the last selected option, giving the same value.) -/
def createSelect (options : List (String × String)) (selVal : Option String) : Dom :=
  .selectInput (options.map fun od =>
    ⟨od.1, if od.2 == "" then od.1 else od.1 ++ " - " ++ od.2, some od.1 == selVal⟩)

/-- JavaScript string coercion of a JSON value assigned to `el.value` of a
text input.  Only strings and numbers reach this point for well-shaped
configuration files; integers render without a fraction part, and the
remaining shapes (never used as text values by the drivers of this code)
are collapsed to the empty string. -/
def jsDisplay : JVal → String
  | .str s => s
  | .num q => if q.den = 1 then toString q.num else toString q
  | _ => ""

/-- `if (x)` on a value expected to be a string: the string itself when
truthy (coerced for non-strings), `none` when falsy. -/
def truthyStr (v : JVal) : Option String :=
  if truthy v then some (jsDisplay v) else none

/-- Assigning `x || 0` to `el.value` of an `<input type=number>`: a falsy
value yields `0`; a number yields itself; any other truthy value is a
non-numeric string after coercion and is sanitized to the empty string by
the browser. -/
def jsNumValue : JVal → Option Rat
  | .num q => if q == 0 then some 0 else some q
  | v => if truthy v then none else some 0

/-- `data?.[k]`: property read through optional chaining; `null` and
`undefined` give `undefined`, objects are looked up.  (Reads on primitives,
excluded by configuration conformance, also give `undefined` here.) -/
def dataGet (d : JVal) (k : String) : JVal :=
  match d with
  | .obj fs => objGet k fs
  | _ => (.undef)

/-- `for (let k of data)` over the list data (line 274): only arrays are
iterated in well-formed configurations (a truthy non-array would either
throw or iterate string characters; conformance excludes it). -/
def dataEntries : JVal → List JVal
  | .arr xs => xs
  | _ => []

/-- The `<select>`-or-text part of the string branch (lines 283-354),
shared word for word between the builder and its specification mirror:
given the select configuration for this path, compute the final option
list (with the configuration value appended when missing, line 292), the
value the element ends up holding, and the updated `selects` state. -/
def stringSelectParts (sel : SelState) (pstr : String) (opts : List (String × String))
    (dflt : String) (data : JVal) : List (String × String) × String × SelState :=
  match truthyStr data with
  | some s =>
    if (opts.map (·.1)).contains s then (opts, s, sel)
    else (opts ++ [(s, "")], s, assocSet pstr (opts ++ [(s, "")], dflt) sel)
  | none => (opts, dflt, sel)

/-- The value a free-form text input is initialized with (lines 341-354):
the configuration value when truthy, else the default for this path when
truthy, else empty. -/
def freeTextValue (dfl : List (String × JVal)) (pstr : String) (data : JVal) : String :=
  match truthyStr data with
  | some s => s
  | none =>
    match assocGet pstr dfl with
    | some dv => if truthy dv then jsDisplay dv else ""
    | none => ""

/-- The value a numeric input is initialized with (lines 355-367):
`data || 0` when the configuration value is neither `null` nor `undefined`,
else `defaults[path] || 0`. -/
def numInputValue (dfl : List (String × JVal)) (pstr : String) (data : JVal) : Option Rat :=
  match data with
  | .null => jsNumValue ((assocGet pstr dfl).getD .undef)
  | .undef => jsNumValue ((assocGet pstr dfl).getD .undef)
  | d => jsNumValue d

/-- Whether the option list consists of SPARQL query files, in which case a
Preview button is appended after the `<select>` (lines 302-340). -/
def allRqOptions (opts : List (String × String)) : Bool :=
  opts.all fun o => o.1.endsWith ".rq" || o.1.endsWith ".sparql" || o.1 == ""

/-- `createItemsRecursively` (lines 216-369): build the list of DOM nodes
appended to `current` for one schema subtree, threading the mutable
`selects` state.  `dfl` is the `defaults` global, `path` the stringified
key path.  Children of an object key live inside a keyed `details`/`div`
element (with its `summary`/`div` header, line 48); a list contributes an
`<ol>` of `<li>` entries (each a `details` with header and Delete button,
lines 81-94) followed by the Add button; strings and numbers contribute a
single form control.  Schema leaves of any other shape contribute
nothing. -/
def createItemsRecursively (dfl : List (String × JVal)) (sel : SelState) (path : List String) :
    JVal → JVal → List Dom × SelState
  | .obj fields, data => buildFields dfl sel path fields data
  | .arr [], data =>
    -- `item = item[0]` is undefined: entries still get their `<li>` shell,
    -- but no recursive content is created for them.
    (([Dom.elt "OL" none ((dataEntries data).map fun _ =>
        Dom.elt "LI" none [Dom.elt "DETAILS" none [Dom.elt "SUMMARY" none [],
          Dom.elt "BUTTON" none []]]),
      Dom.elt "BUTTON" none []] : List Dom), sel)
  | .arr (item0 :: _), data =>
    let built := buildEntries dfl sel (path ++ ["_"]) item0 (dataEntries data)
    ([Dom.elt "OL" none built.1, Dom.elt "BUTTON" none []], built.2)
  | .str _, data =>
    let pstr := pathToString path
    (match assocGet pstr sel with
     | some (opts, dflt) =>
       let parts := stringSelectParts sel pstr opts dflt data
       let selEl := createSelect parts.1 (some parts.2.1)
       (if allRqOptions parts.1 then [selEl, Dom.elt "BUTTON" none []] else [selEl],
        parts.2.2)
     | none => ([Dom.textInput (freeTextValue dfl pstr data)], sel))
  | .num _, data => ([Dom.numberInput (numInputValue dfl (pathToString path) data)], sel)
  | _, _ => ([], sel)
where
  /-- The object branch (lines 219-232): one keyed element per key, in key
  order, each containing its header and its recursively built children. -/
  buildFields (dfl : List (String × JVal)) (sel : SelState) (path : List String) :
      List (String × JVal) → JVal → List Dom × SelState
  | [], _ => ([], sel)
  | (k, sk) :: rest, data =>
    let small :=
      match sk with
      | .str _ => true
      | .num _ => true
      | _ => false
    let inner := createItemsRecursively dfl sel (path ++ [pathComp k]) sk (dataGet data k)
    let el := Dom.elt (if small then "DIV" else "DETAILS")
      (if k == "" then none else some k)
      (Dom.elt (if small then "DIV" else "SUMMARY") none [] :: inner.1)
    let others := buildFields dfl inner.2 path rest data
    (el :: others.1, others.2)
  /-- The list branch (lines 233-277): one `<li>` entry per element of the
  configuration array, each containing the entry header, the Delete button
  and the recursively built children of the element schema. -/
  buildEntries (dfl : List (String × JVal)) (sel : SelState) (path : List String)
      (item0 : JVal) : List JVal → List Dom × SelState
  | [] => ([], sel)
  | d :: ds =>
    let inner := createItemsRecursively dfl sel path item0 d
    let li := Dom.elt "LI" none [Dom.elt "DETAILS" none
      (Dom.elt "SUMMARY" none [] :: Dom.elt "BUTTON" none [] :: inner.1)]
    let others := buildEntries dfl inner.2 path item0 ds
    (li :: others.1, others.2)

/-- `loadDocStructureFromObject` (line 371): build the whole form under
`#main` from the root schema and a configuration document. -/
def loadDocStructureFromObject (dfl : List (String × JVal)) (sel : SelState)
    (structure_ : JVal) (data : JVal) : List Dom × SelState :=
  createItemsRecursively dfl sel [] structure_ data

/-- Structural size of a JSON document, used to bound the recursion depth of
the builder. -/
def jsize : JVal → Nat
  | .null => 1
  | .undef => 1
  | .str _ => 1
  | .num _ => 1
  | .arr xs => 1 + jsizeL xs
  | .obj fs => 1 + jsizeF fs
where
  jsizeL : List JVal → Nat
  | [] => 0
  | x :: xs => jsize x + jsizeL xs
  jsizeF : List (String × JVal) → Nat
  | [] => 0
  | p :: fs => jsize p.2 + jsizeF fs

mutual

/-- Fuel-indexed variant of `createItemsRecursively`, modelling the raw
JavaScript recursion (which carries no termination guarantee of its own):
every nested `createItemsRecursively` call consumes one unit of fuel and
exhausted fuel aborts the build.  `createItemsFuel_spec` shows fuel
`jsize schema` always suffices. -/
def createItemsFuel (fuel : Nat) (dfl : List (String × JVal)) (sel : SelState)
    (path : List String) (item data : JVal) : Option (List Dom × SelState) :=
  match fuel with
  | 0 => none
  | fuel + 1 =>
    match item with
    | .obj fields => buildFieldsF fuel dfl sel path fields data
    | .arr [] =>
      some (([Dom.elt "OL" none ((dataEntries data).map fun _ =>
          Dom.elt "LI" none [Dom.elt "DETAILS" none [Dom.elt "SUMMARY" none [],
            Dom.elt "BUTTON" none []]]),
        Dom.elt "BUTTON" none []] : List Dom), sel)
    | .arr (item0 :: _) =>
      match buildEntriesF fuel dfl sel (path ++ ["_"]) item0 (dataEntries data) with
      | some built => some ([Dom.elt "OL" none built.1, Dom.elt "BUTTON" none []], built.2)
      | none => none
    | .str _ =>
      let pstr := pathToString path
      some (match assocGet pstr sel with
       | some (opts, dflt) =>
         let parts := stringSelectParts sel pstr opts dflt data
         let selEl := createSelect parts.1 (some parts.2.1)
         (if allRqOptions parts.1 then [selEl, Dom.elt "BUTTON" none []] else [selEl],
          parts.2.2)
       | none => ([Dom.textInput (freeTextValue dfl pstr data)], sel))
    | .num _ => some ([Dom.numberInput (numInputValue dfl (pathToString path) data)], sel)
    | _ => some ([], sel)
termination_by (fuel, 0)

/-- The object branch of `createItemsFuel`. -/
def buildFieldsF (fuel : Nat) (dfl : List (String × JVal)) (sel : SelState)
    (path : List String) (fields : List (String × JVal)) (data : JVal) :
    Option (List Dom × SelState) :=
  match fields with
  | [] => some ([], sel)
  | (k, sk) :: rest =>
    let small :=
      match sk with
      | .str _ => true
      | .num _ => true
      | _ => false
    match createItemsFuel fuel dfl sel (path ++ [pathComp k]) sk (dataGet data k) with
    | none => none
    | some inner =>
      let el := Dom.elt (if small then "DIV" else "DETAILS")
        (if k == "" then none else some k)
        (Dom.elt (if small then "DIV" else "SUMMARY") none [] :: inner.1)
      match buildFieldsF fuel dfl inner.2 path rest data with
      | none => none
      | some others => some (el :: others.1, others.2)
termination_by (fuel, fields.length + 1)

/-- The list branch of `createItemsFuel`. -/
def buildEntriesF (fuel : Nat) (dfl : List (String × JVal)) (sel : SelState)
    (path : List String) (item0 : JVal) (ds : List JVal) :
    Option (List Dom × SelState) :=
  match ds with
  | [] => some ([], sel)
  | d :: rest =>
    match createItemsFuel fuel dfl sel path item0 d with
    | none => none
    | some inner =>
      let li := Dom.elt "LI" none [Dom.elt "DETAILS" none
        (Dom.elt "SUMMARY" none [] :: Dom.elt "BUTTON" none [] :: inner.1)]
      match buildEntriesF fuel dfl inner.2 path item0 rest with
      | none => none
      | some others => some (li :: others.1, others.2)
termination_by (fuel, ds.length + 1)

end

/-- Number of form controls that the `querySelectorAll` selector
`#main [data-key] select, #main [data-key] input` matches in a forest:
`hasKey` records whether some ancestor already carries a `data-key`. -/
def matchedCount (hasKey : Bool) : List Dom → Nat
  | [] => 0
  | d :: rest => matchedOne hasKey d + matchedCount hasKey rest
where
  matchedOne (hasKey : Bool) : Dom → Nat
  | .elt _ k kids => matchedCount (hasKey || k.isSome) kids
  | _ => if hasKey then 1 else 0

/-- A network request issued by the GUI. -/
inductive FetchReq where
  | getJson : String → FetchReq
  | getText : String → FetchReq
  | post : String → String → String → String → FetchReq
  deriving Repr, DecidableEq

/-- `loadUIConfig` (lines 125-133): the requests it issues, in order.  The
name of the seventh document is the text returned for `/default_input`. -/
def loadUIConfigRequests (defaultInputName : String) : List FetchReq :=
  [.getJson "/structure.json", .getJson "/descriptions.json",
   .getJson "/selects.json", .getJson "/defaults.json",
   .getJson "/configs.json", .getText "/default_input",
   .getJson ("/" ++ defaultInputName)]

/-- The four JSON documents the specification names as describing the form
schema. -/
def schemaDocRequests : List FetchReq :=
  [.getJson "/structure.json", .getJson "/descriptions.json",
   .getJson "/selects.json", .getJson "/defaults.json"]

/-- Minimal JSON escaping for string literals (quotes and backslashes). -/
def jsonEscape (s : String) : String := String.mk (escChars s.data)
where
  escChars : List Char → List Char
  | [] => []
  | c :: cs =>
    (if c = '"' then ['\\', '"'] else if c = '\\' then ['\\', '\\'] else [c]) ++ escChars cs

/-- The value `JSON.stringify` actually encodes: properties holding
`undefined` are omitted, array holes and `undefined` elements become
`null`. -/
def stringifyNorm : JVal → JVal
  | .obj fs => .obj (normF fs)
  | .arr xs => .arr (normL xs)
  | .undef => .null
  | v => v
where
  normF : List (String × JVal) → List (String × JVal)
  | [] => []
  | (k, v) :: fs =>
    match v with
    | .undef => normF fs
    | v => (k, stringifyNorm v) :: normF fs
  normL : List JVal → List JVal
  | [] => []
  | x :: xs =>
    (match x with
     | .undef => .null
     | x => stringifyNorm x) :: normL xs

/-- A compact rendering of `JSON.stringify(·)` (the two-space pretty
printing of line 397 is whitespace only and is not reproduced).  Number
rendering matches JavaScript for integers; non-integral rationals keep
Lean's `num/den` notation, which is injective, the only property used. -/
def jsonStringify : JVal → String
  | .null => "null"
  | .undef => "null"
  | .str s => "\"" ++ jsonEscape s ++ "\""
  | .num q => jsDisplay (.num q)
  | .arr xs => "[" ++ String.intercalate "," (strL xs) ++ "]"
  | .obj fs => "\x7b" ++ String.intercalate "," (strF fs) ++ "\x7d"
where
  strL : List JVal → List String
  | [] => []
  | x :: xs =>
    (match x with
     | .undef => "null"
     | x => jsonStringify x) :: strL xs
  strF : List (String × JVal) → List String
  | [] => []
  | (k, v) :: fs =>
    match v with
    | .undef => strF fs
    | v => ("\"" ++ jsonEscape k ++ "\":" ++ jsonStringify v) :: strF fs

/-- `generateConfig` (lines 394-411) as far as data flow is concerned: the
JSON text of the serialized form, shown in the output area and submitted to
`/compose`. -/
def generateConfigText (mainKids : List Dom) : String :=
  jsonStringify (allInputsToConfigObject mainKids)

/-- JavaScript `String.prototype.replace` with a string pattern: only the
first occurrence is replaced. -/
def jsReplaceOnce (s pat repl : String) : String :=
  match s.splitOn pat with
  | [] => s
  | [_] => s
  | a :: rest => a ++ repl ++ String.intercalate pat rest

/-- What `composeQueryRequest` (lines 413-422) resolves to: either the pair
`[r.status, await r.text()]`, or — through `.catch(_id)` — the network
error object itself, whose `[0]`/`[1]` reads give `undefined`. -/
inductive ComposeResp where
  | httpResp : Nat → String → ComposeResp
  | netError : ComposeResp
  deriving Repr, DecidableEq

/-- The single request `composeQueryRequest` issues. -/
def composeQueryRequestReq (resJson : String) : FetchReq :=
  .post "/compose" "application/sparql-query" "application/json" resJson

/-- The output-area state written by `compose` / `generateConfig`: the
SPARQL `<pre>` text and its error marker, the visibility and blob content
of the two download buttons, and the JSON `<pre>` text. -/
structure ComposeView where
  rqText : String
  rqError : Bool
  rqDlShown : Bool
  rqDlBlob : String
  rqDlName : String
  jsonText : String
  jsonDlShown : Bool
  jsonDlBlob : String
  deriving Repr, DecidableEq

/-- `compose` (lines 424-446) together with the `generateConfig` call it
makes: from the current form (`mainKids`), the currently opened
configuration name (`i_inp.value`) and the response, the requests issued
and the resulting output-area state.  On a network error the displayed
string is the JavaScript coercion of `undefined`. -/
def composeOut (mainKids : List Dom) (cfgName : String) (resp : ComposeResp) :
    List FetchReq × ComposeView :=
  let resJson := generateConfigText mainKids
  let ok :=
    match resp with
    | .httpResp s _ => s == 200
    | .netError => false
  let s :=
    match resp with
    | .httpResp _ t => t
    | .netError => "undefined"
  let rqName :=
    if cfgName == "blank_compose.json" then "compose_spatial.rq"
    else jsReplaceOnce (jsReplaceOnce cfgName "_compose" "") ".json" ".rq"
  ([composeQueryRequestReq resJson],
   { rqText := s
     rqError := !ok
     rqDlShown := ok
     rqDlBlob := s
     rqDlName := rqName
     jsonText := resJson
     jsonDlShown := true
     jsonDlBlob := resJson })

/-- Key lists of JavaScript objects carry no duplicates. -/
def nodupKeys : List String → Bool
  | [] => true
  | k :: ks => !(ks.contains k) && nodupKeys ks

/-- The schema fragment on which the composer's path inference is faithful:
object keys are non-empty (an empty key never reaches `dataset.key`, line
44, so its subtree would be dropped from every inferred path) and pairwise
distinct, and no list's element schema is itself a list (for directly
nested lists the walk of lines 156-173 overwrites the inner index `n` with
the outer one, collapsing the nesting).  Only the head of a schema array is
ever read (`item = item[0]`, line 236). -/
def wfSchema : JVal → Bool
  | .obj fs => wfFields fs
  | .arr [] => true
  | .arr (i0 :: _) =>
    (match i0 with
     | .arr _ => false
     | _ => true) && wfSchema i0
  | _ => true
where
  wfFields : List (String × JVal) → Bool
  | [] => true
  | (k, sk) :: rest =>
    !(k == "") && !(rest.map (·.1)).contains k && wfSchema sk && wfFields rest

/-- Conformance of a configuration document to a schema: `null` or absent
is allowed everywhere; objects match objects key-wise (extra keys are
ignored by the builder), arrays match arrays element-wise against the
element schema, strings match strings and numbers numbers.  Schema leaves
of any other shape constrain nothing (the builder creates nothing for
them). -/
def conf : JVal → JVal → Bool
  | _, .null => true
  | _, .undef => true
  | .obj fs, .obj ds => nodupKeys (ds.map (·.1)) && confFields fs ds
  | .obj _, _ => false
  | .arr [], .arr _ => true
  | .arr (i0 :: _), .arr ds => confEntries i0 ds
  | .arr _, _ => false
  | .str _, .str _ => true
  | .str _, _ => false
  | .num _, .num _ => true
  | .num _, _ => false
  | _, _ => true
where
  confFields : List (String × JVal) → List (String × JVal) → Bool
  | [], _ => true
  | (k, sk) :: rest, ds => conf sk (objGet k ds) && confFields rest ds
  confEntries : JVal → List JVal → Bool
  | _, [] => true
  | i0, d :: ds => conf i0 d && confEntries i0 ds

/-- The value a `<select>` built by `createSelect options (some v)` ends up
holding: `v` itself when it is among the option values, otherwise the first
option's value (no option is flagged selected then). -/
def selectedValue (options : List (String × String)) (v : String) : String :=
  if (options.map (·.1)).contains v then v
  else ((options.head?).map (·.1)).getD ""

/-- Drop the trailing `none`s of a list of optional values: a JavaScript
array's length is one past its last assigned index, so list entries beyond
the last one that contributed an input leave no slot at all. -/
def dropTrailingNones (es : List (Option JVal)) : List (Option JVal) :=
  (es.reverse.dropWhile (·.isNone)).reverse

/-- Specification mirror of the composer round trip: the nested object that
serializing an untouched form built from `schema` and `data` must produce,
defined structurally on the schema with each leaf's value placed at its
schema path.  `none` means the subtree contributes no input at all (its key
or slot is absent from the serialized object).  Leaf values and the
`selects` threading reuse the builder's own helper functions, so this
definition differs from `serialize ∘ build` exactly in how paths are
obtained: here from the schema, there inferred from the rendered tree. -/
def rtSpec (dfl : List (String × JVal)) (sel : SelState) (path : List String) :
    JVal → JVal → Option JVal × SelState
  | .obj fields, data =>
    let r := rtFields dfl sel path fields data
    ((if r.1.isEmpty then none else some (.obj r.1)), r.2)
  | .arr [], _ => (none, sel)
  | .arr (item0 :: _), data =>
    let r := rtEntries dfl sel (path ++ ["_"]) item0 (dataEntries data)
    ((if r.1.all (·.isNone) then none
      else some (.arr ((dropTrailingNones r.1).map (fun o => o.getD .undef)))), r.2)
  | .str _, data =>
    let pstr := pathToString path
    (match assocGet pstr sel with
     | some (opts, dflt) =>
       let parts := stringSelectParts sel pstr opts dflt data
       (some (valOrNull (.str (selectedValue parts.1 parts.2.1))), parts.2.2)
     | none => (some (valOrNull (.str (freeTextValue dfl pstr data))), sel))
  | .num _, data =>
    (some (valOrNull (.num ((numInputValue dfl (pathToString path) data).getD 0))), sel)
  | _, _ => (none, sel)
where
  rtFields (dfl : List (String × JVal)) (sel : SelState) (path : List String) :
      List (String × JVal) → JVal → List (String × JVal) × SelState
  | [], _ => ([], sel)
  | (k, sk) :: rest, data =>
    let r := rtSpec dfl sel (path ++ [pathComp k]) sk (dataGet data k)
    let o := rtFields dfl r.2 path rest data
    ((match r.1 with
      | some v => (k, v) :: o.1
      | none => o.1), o.2)
  rtEntries (dfl : List (String × JVal)) (sel : SelState) (path : List String)
      (item0 : JVal) : List JVal → List (Option JVal) × SelState
  | [] => ([], sel)
  | d :: ds =>
    let r := rtSpec dfl sel path item0 d
    let o := rtEntries dfl r.2 path item0 ds
    (r.1 :: o.1, o.2)

/-- The serialized form of a built tree, rooted at the empty result object,
with `rtSpec`'s convention that a form containing no input serializes to
`\x7b\x7d`. -/
def rtSpecTop (dfl : List (String × JVal)) (sel : SelState) (structure_ data : JVal) : JVal :=
  ((rtSpec dfl sel [] structure_ data).1).getD (.obj [])

/-- Whether a value contains an array hole (`undefined` element) anywhere:
the negation of every array being dense. -/
def hasHole : JVal → Bool
  | .obj fs => holeF fs
  | .arr xs => holeL xs
  | _ => false
where
  holeF : List (String × JVal) → Bool
  | [] => false
  | (_, v) :: fs => hasHole v || holeF fs
  holeL : List JVal → Bool
  | [] => false
  | x :: xs =>
    (match x with
     | .undef => true
     | x => hasHole x) || holeL xs

/-- Every leaf of a (stringify-normalized) serialized configuration is
`null`, a non-empty string or a non-zero number. -/
def goodLeaves : JVal → Bool
  | .obj fs => goodF fs
  | .arr xs => goodL xs
  | .null => true
  | .undef => false
  | .str s => !(s == "")
  | .num q => !(q == 0)
where
  goodF : List (String × JVal) → Bool
  | [] => true
  | (_, v) :: fs => goodLeaves v && goodF fs
  goodL : List JVal → Bool
  | [] => true
  | x :: xs => goodLeaves x && goodL xs

/-- Schemas whose every *list element* schema is guaranteed to render at
least one form control per entry regardless of the configuration: strings
and numbers always render a control; an object does when one of its
(non-empty-keyed) fields does.  A list element schema that is itself a
list, or an object all of whose fields may render nothing, can produce
empty entries and hence array holes. -/
def alwaysInput : JVal → Bool
  | .str _ => true
  | .num _ => true
  | .obj fs => someFieldInput fs
  | _ => false
where
  someFieldInput : List (String × JVal) → Bool
  | [] => false
  | (k, sk) :: rest => (!(k == "") && alwaysInput sk) || someFieldInput rest

/-- Every list element schema reachable in the schema guarantees an input
(`alwaysInput`), so no list entry ever serializes to a hole. -/
def denseLists : JVal → Bool
  | .obj fs => denseF fs
  | .arr [] => true
  | .arr (i0 :: _) => alwaysInput i0 && denseLists i0
  | _ => true
where
  denseF : List (String × JVal) → Bool
  | [] => true
  | (_, sk) :: rest => denseLists sk && denseF rest

/-- Invariant of the serializer's result object while it is being built:
every leaf is `null`, a non-empty string or a non-zero number, except that
array holes (`undefined`) are still present (they become `null` only in
`JSON.stringify`, see `stringifyNorm`). -/
def goodRaw : JVal → Bool
  | .obj fs => grF fs
  | .arr xs => grL xs
  | .null => true
  | .undef => true
  | .str s => !(s == "")
  | .num q => !(q == 0)
where
  grF : List (String × JVal) → Bool
  | [] => true
  | (_, v) :: fs => goodRaw v && grF fs
  grL : List JVal → Bool
  | [] => true
  | x :: xs => goodRaw x && grL xs

/-- The shapes a collected input value can take: every entry of
`collectInputs` carries a string (text input, select) or a number (numeric
input). -/
def strOrNum : JVal → Bool
  | .str _ => true
  | .num _ => true
  | _ => false

/-- Process one write of a leaf value at an absolute, parent-first segment
path: exactly what `addInput` does after the upward walk has produced the
path (reverse, patch, pop are already accounted for). -/
def segWriteP (r : JVal) (w : List Seg × JVal) : JVal :=
  match w.1.getLast? with
  | none => r
  | some (pi, k) => descendWrite r w.1.dropLast pi k w.2

mutual

/-- The list of leaf writes a built subtree contributes, with segment paths
relative to the subtree's container, in document order, mirroring the
builder's branch structure and `selects` threading.  A leaf contributes one
write carrying the input's value; an object key prefixes `(none, k)`; a
list under key `k` prefixes `(some j, k)` for its `j`-th entry.  A list
schema at the top of a subtree (possible only for nested lists or a list
root, both outside `wfSchema` with an object root) contributes nothing
here. -/
def relWrites (dfl : List (String × JVal)) (sel : SelState) (path : List String)
    (item data : JVal) : List (List Seg × JVal) × SelState :=
  match item with
  | .obj fields => rwFields dfl sel path fields data
  | .str _ =>
    let pstr := pathToString path
    (match assocGet pstr sel with
     | some (opts, dflt) =>
       let parts := stringSelectParts sel pstr opts dflt data
       ([([], .str (selectedValue parts.1 parts.2.1))], parts.2.2)
     | none => ([([], .str (freeTextValue dfl pstr data))], sel))
  | .num _ => ([([], .num ((numInputValue dfl (pathToString path) data).getD 0))], sel)
  | _ => ([], sel)
termination_by (sizeOf item, 0, 0)

/-- The writes of an object's fields, in key order. -/
def rwFields (dfl : List (String × JVal)) (sel : SelState) (path : List String)
    (fields : List (String × JVal)) (data : JVal) :
    List (List Seg × JVal) × SelState :=
  match fields with
  | [] => ([], sel)
  | (k, sk) :: rest =>
    let here :=
      match sk with
      | .arr [] => (([] : List (List Seg × JVal)), sel)
      | .arr (i0 :: _) =>
        rwEntries dfl sel (path ++ [pathComp k] ++ ["_"]) k i0
          (dataEntries (dataGet data k)) 0
      | .obj f2 =>
        let inner := relWrites dfl sel (path ++ [pathComp k]) (.obj f2) (dataGet data k)
        (inner.1.map fun (w : List Seg × JVal) => ((none, k) :: w.1, w.2), inner.2)
      | .str s0 =>
        let inner := relWrites dfl sel (path ++ [pathComp k]) (.str s0) (dataGet data k)
        (inner.1.map fun (w : List Seg × JVal) => ((none, k) :: w.1, w.2), inner.2)
      | .num q0 =>
        let inner := relWrites dfl sel (path ++ [pathComp k]) (.num q0) (dataGet data k)
        (inner.1.map fun (w : List Seg × JVal) => ((none, k) :: w.1, w.2), inner.2)
      | .null =>
        let inner := relWrites dfl sel (path ++ [pathComp k]) .null (dataGet data k)
        (inner.1.map fun (w : List Seg × JVal) => ((none, k) :: w.1, w.2), inner.2)
      | .undef =>
        let inner := relWrites dfl sel (path ++ [pathComp k]) .undef (dataGet data k)
        (inner.1.map fun (w : List Seg × JVal) => ((none, k) :: w.1, w.2), inner.2)
    let others := rwFields dfl here.2 path rest data
    (here.1 ++ others.1, others.2)
termination_by (sizeOf fields, 1, 0)

/-- The writes of a list's entries, from entry index `j` on. -/
def rwEntries (dfl : List (String × JVal)) (sel : SelState) (path : List String)
    (k : String) (i0 : JVal) (ds : List JVal) (j : Nat) :
    List (List Seg × JVal) × SelState :=
  match ds with
  | [] => ([], sel)
  | dj :: ds' =>
    let inner := relWrites dfl sel path i0 dj
    let others := rwEntries dfl inner.2 path k i0 ds' (j + 1)
    ((inner.1.map fun (w : List Seg × JVal) => ((some j, k) :: w.1, w.2)) ++ others.1, others.2)
termination_by (sizeOf i0, 2, ds.length)

end

/-- `s` is not an array schema.  Under `wfSchema` with an object root,
every subtree the builder recurses into from an object key or a list entry
that is itself not a list satisfies this. -/
def notArr : JVal → Bool
  | .arr _ => false
  | _ => true

/-- The ancestor chains (element-first) that the builder produces for a
subtree container, together with the parent-first absolute segment path the
serializer's walk recovers from them: the empty chain for children of
`#main`; a keyed, non-`LI` element for an object key; and the
`details`/`li`/`ol` shell inside a keyed element for the `j`-th entry of a
list. -/
inductive CtxOk : List ChainEntry → List Seg → Prop where
  | nil : CtxOk [] []
  | objStep {c γ} (tag : String) (idx : Nat) (k : String) :
      CtxOk c γ → tag ≠ "LI" →
      CtxOk (⟨some k, tag, idx⟩ :: c) (γ ++ [(none, k)])
  | arrStep {c γ} (tagK : String) (idxC idxO idxK : Nat) (k : String) (j : Nat) :
      CtxOk c γ → tagK ≠ "LI" →
      CtxOk (⟨none, "DETAILS", idxC⟩ :: ⟨none, "LI", j⟩ :: ⟨none, "OL", idxO⟩ ::
        ⟨some k, tagK, idxK⟩ :: c) (γ ++ [(some j, k)])

/-- The array value assembled by replaying, from slot `j` on, one
`a[j] = v` assignment per contributing list entry: `some v` entries write
(padding skipped slots with holes), `none` entries only advance the
index. -/
def entriesArr (xs : List JVal) (j : Nat) : List (Option JVal) → List JVal
  | [] => xs
  | some v :: es => entriesArr (arrSet xs j v) (j + 1) es
  | none :: es => entriesArr xs (j + 1) es

/-- The object the serializer navigates into at an object segment: the
existing child when truthy, else the freshly created `\x7b\x7d`
(lines 196-198). -/
def objInit (u : JVal) : JVal := if truthy u then u else .obj []

/-- The array the serializer navigates into at a list segment: the existing
child when truthy, else the freshly created `[]` (lines 187-189). -/
def objInitArr (u : JVal) : JVal := if truthy u then u else .arr []

/-- The absolute writes of a subtree: its relative writes with the ancestor
segment path `γ` prepended, the form in which they appear at the root. -/
def absW (γ : List Seg) (ws : List (List Seg × JVal)) : List (List Seg × JVal) :=
  ws.map fun w => (γ ++ w.1, w.2)

/-- A schema with a list directly inside a list: the inner list's entries
collapse on serialization (the inner `li` index is overwritten by the outer
one during the upward walk). -/
def cxSchema1 : JVal := .obj [("k", .arr [.arr [.str "s"]])]

/-- A configuration conforming to `cxSchema1`: one inner list of two
strings. -/
def cxData1 : JVal := .obj [("k", .arr [.arr [.str "x", .str "y"]])]

/-- A well-formed schema whose list element is an object that may render no
input at all (its single field is a list, empty in the configuration). -/
def cxSchema2 : JVal := .obj [("k", .arr [.obj [("a", .arr [.str "s"])]])]

/-- A configuration conforming to `cxSchema2` whose first list entry is an
empty object: that entry contributes no input and leaves an array hole. -/
def cxData2 : JVal := .obj [("k", .arr [.obj [], .obj [("a", .arr [.str "x"])]])]

/-! ## Theorems -/

/-- C2 (counterexample): loading the UI configuration does *not* fetch only
the four schema documents: `loadUIConfig` issues seven requests, among them
`/configs.json`, which is none of `structure`, `descriptions`, `selects`,
`defaults`. -/
theorem loadUIConfig_not_only_schema_docs :
    (loadUIConfigRequests "blank_compose.json").length = 7 ∧
    FetchReq.getJson "/configs.json" ∈ loadUIConfigRequests "blank_compose.json" ∧
    FetchReq.getJson "/configs.json" ∉ schemaDocRequests ∧
    loadUIConfigRequests "blank_compose.json" ≠ schemaDocRequests := by
  decide

/-- C2 (amended): `loadUIConfig` fetches the four schema JSON documents —
`structure`, `descriptions`, `selects`, `defaults` — followed by the list
of available configurations (`/configs.json`), the default configuration
name (`/default_input`, as text) and the default configuration document
itself; it performs no further fetches. -/
theorem loadUIConfig_requests (name : String) :
    loadUIConfigRequests name =
      schemaDocRequests ++
        [.getJson "/configs.json", .getText "/default_input", .getJson ("/" ++ name)] := by
  rfl

/-- C3: clicking Compose submits the serialized configuration JSON in a
single POST request to `/compose`, and on a 200 response displays exactly
the returned body as the SPARQL query text (for every possible body, so the
query text is never produced locally), without the error marker and with
the download enabled and backed by exactly that body. -/
theorem compose_posts_and_displays_response (mainKids : List Dom) (cfgName : String)
    (resp : ComposeResp) (body : String) :
    (composeOut mainKids cfgName resp).1 =
      [FetchReq.post "/compose" "application/sparql-query" "application/json"
        (jsonStringify (allInputsToConfigObject mainKids))] ∧
    (composeOut mainKids cfgName (.httpResp 200 body)).2.rqText = body ∧
    (composeOut mainKids cfgName (.httpResp 200 body)).2.rqError = false ∧
    (composeOut mainKids cfgName (.httpResp 200 body)).2.rqDlShown = true ∧
    (composeOut mainKids cfgName (.httpResp 200 body)).2.rqDlBlob = body := by
  refine ⟨rfl, ?_, ?_, ?_, ?_⟩ <;> simp [composeOut]

/-- C4 (counterexample): on a failing compose request the previously
generated JSON output is *not* left unchanged — `generateConfig` runs
before the request and overwrites it from the current form, so two failing
composes over different forms show different JSON output — and on a network
error the text shown is the literal `"undefined"`, not the text of any HTTP
response. -/
theorem compose_failure_rewrites_json_output :
    (composeOut [Dom.elt "DIV" (some "k") [Dom.textInput "old"]]
        "blank_compose.json" .netError).2.rqText = "undefined" ∧
    (composeOut [Dom.elt "DIV" (some "k") [Dom.textInput "old"]]
        "blank_compose.json" .netError).2.jsonText ≠
      (composeOut [Dom.elt "DIV" (some "k") [Dom.textInput "new"]]
        "blank_compose.json" .netError).2.jsonText := by
  decide

/-- C4 (amended): on failure of the compose request (status other than 200,
or a network error) the response text — or the literal `"undefined"` for a
network error, where no response exists — is shown in the output area
marked as an error and the SPARQL download is hidden; no retry or rollback
runs (the only request remains the single POST), and the failure handling
itself touches nothing else: the JSON output holds the serialization of the
current form, exactly as on success (it is regenerated before the request
on every compose, failing or not). -/
theorem compose_failure_reports_error (mainKids : List Dom) (cfgName : String)
    (st : Nat) (t : String) (hst : st ≠ 200) :
    ((composeOut mainKids cfgName (.httpResp st t)).2.rqError = true ∧
     (composeOut mainKids cfgName (.httpResp st t)).2.rqDlShown = false ∧
     (composeOut mainKids cfgName (.httpResp st t)).2.rqText = t ∧
     (composeOut mainKids cfgName (.httpResp st t)).2.jsonText =
       generateConfigText mainKids ∧
     (composeOut mainKids cfgName (.httpResp st t)).1 =
       [composeQueryRequestReq (generateConfigText mainKids)]) ∧
    ((composeOut mainKids cfgName .netError).2.rqError = true ∧
     (composeOut mainKids cfgName .netError).2.rqDlShown = false ∧
     (composeOut mainKids cfgName .netError).2.rqText = "undefined" ∧
     (composeOut mainKids cfgName .netError).2.jsonText =
       generateConfigText mainKids) := by
  refine ⟨⟨?_, ?_, ?_, ?_, ?_⟩, ?_, ?_, ?_, ?_⟩ <;>
    simp [composeOut, generateConfigText, composeQueryRequestReq, hst]

/-- C4 (witness). -/
theorem compose_failure_reports_error_witness :
    (composeOut [] "blank_compose.json" (.httpResp 500 "boom")).2.rqError = true := by
  exact (compose_failure_reports_error [] "blank_compose.json" 500 "boom"
    (by decide)).1.1

/-- C7: serializing the form is deterministic and depends only on the
collected input elements (their values and ancestor chains, i.e. their DOM
positions): two forms whose collected inputs agree serialize to the same
nested object, and re-running the serializer on the same form gives the
same object.  The serializer itself is a pure function of the form tree and
returns it unmodified. -/
theorem allInputsToConfigObject_deterministic (d1 d2 : List Dom)
    (h : collectInputs [] 0 d1 = collectInputs [] 0 d2) :
    allInputsToConfigObject d1 = allInputsToConfigObject d2 ∧
    allInputsToConfigObject d1 = allInputsToConfigObject d1 := by
  constructor
  · unfold allInputsToConfigObject
    rw [h]
  · rfl

/-- C7 (witness). -/
theorem allInputsToConfigObject_deterministic_witness :
    allInputsToConfigObject [Dom.elt "DIV" (some "k") [Dom.textInput "v"]] =
      allInputsToConfigObject [Dom.elt "DIV" (some "k") [Dom.textInput "v"]] :=
  (allInputsToConfigObject_deterministic
    [Dom.elt "DIV" (some "k") [Dom.textInput "v"]]
    [Dom.elt "DIV" (some "k") [Dom.textInput "v"]] rfl).1

mutual

theorem goodRaw_norm : ∀ v, goodRaw v = true → goodLeaves (stringifyNorm v) = true
  | .null, _ => rfl
  | .undef, _ => rfl
  | .str s, h => by simpa [goodRaw, stringifyNorm, goodLeaves] using h
  | .num q, h => by simpa [goodRaw, stringifyNorm, goodLeaves] using h
  | .arr xs, h => by
    simp only [goodRaw] at h
    simpa [stringifyNorm, goodLeaves] using goodRaw_normL xs h
  | .obj fs, h => by
    simp only [goodRaw] at h
    simpa [stringifyNorm, goodLeaves] using goodRaw_normF fs h

theorem goodRaw_normL : ∀ xs, goodRaw.grL xs = true →
    goodLeaves.goodL (stringifyNorm.normL xs) = true
  | [], _ => rfl
  | x :: xs, h => by
    simp only [goodRaw.grL, Bool.and_eq_true] at h
    have hx := goodRaw_norm x h.1
    have hxs := goodRaw_normL xs h.2
    cases x <;> simp_all [stringifyNorm.normL, goodLeaves.goodL, stringifyNorm, goodLeaves]

theorem goodRaw_normF : ∀ fs, goodRaw.grF fs = true →
    goodLeaves.goodF (stringifyNorm.normF fs) = true
  | [], _ => rfl
  | (k, v) :: fs, h => by
    simp only [goodRaw.grF, Bool.and_eq_true] at h
    have hv := goodRaw_norm v h.1
    have hfs := goodRaw_normF fs h.2
    cases v <;> simp_all [stringifyNorm.normF, goodLeaves.goodF, stringifyNorm, goodLeaves]

end

theorem valOrNull_good (v : JVal) (h : strOrNum v = true) : goodRaw (valOrNull v) = true := by
  cases v <;> simp_all [strOrNum, valOrNull, truthy, goodRaw] <;> split <;> simp_all [goodRaw]

theorem objGet_good : ∀ fs, goodRaw.grF fs = true → ∀ k, goodRaw (objGet k fs) = true
  | [], _, _ => rfl
  | (k', v) :: fs, h, k => by
    simp only [goodRaw.grF, Bool.and_eq_true] at h
    by_cases hk : k' == k <;> simp [objGet, hk, h.1, objGet_good fs h.2 k]

theorem objSet_good : ∀ fs k v, goodRaw.grF fs = true → goodRaw v = true →
    goodRaw.grF (objSet fs k v) = true
  | [], k, v, _, hv => by simp [objSet, goodRaw.grF, hv]
  | (k', v') :: fs, k, v, h, hv => by
    simp only [goodRaw.grF, Bool.and_eq_true] at h
    by_cases hk : k' == k <;>
      simp [objSet, hk, goodRaw.grF, h.1, h.2, hv, objSet_good fs k v h.2 hv]

theorem arrGet_good : ∀ xs, goodRaw.grL xs = true → ∀ i, goodRaw (arrGet xs i) = true
  | [], _, i => by cases i <;> rfl
  | x :: xs, h, i => by
    simp only [goodRaw.grL, Bool.and_eq_true] at h
    cases i with
    | zero => simpa [arrGet] using h.1
    | succ j => simpa [arrGet] using arrGet_good xs h.2 j

theorem grL_append : ∀ xs ys, goodRaw.grL (xs ++ ys) = (goodRaw.grL xs && goodRaw.grL ys)
  | [], ys => by simp [goodRaw.grL]
  | x :: xs, ys => by simp [goodRaw.grL, grL_append xs ys, Bool.and_assoc]

theorem grL_replicate (n : Nat) : goodRaw.grL (List.replicate n .undef) = true := by
  induction n with
  | zero => rfl
  | succ m ih => simpa [List.replicate, goodRaw.grL, goodRaw] using ih

theorem grL_set : ∀ xs i v, goodRaw.grL xs = true → goodRaw v = true →
    goodRaw.grL (xs.set i v) = true
  | [], _, _, _, _ => rfl
  | x :: xs, 0, v, h, hv => by
    simp only [goodRaw.grL, Bool.and_eq_true] at h
    simp [goodRaw.grL, hv, h.2]
  | x :: xs, i + 1, v, h, hv => by
    simp only [goodRaw.grL, Bool.and_eq_true] at h
    simp [goodRaw.grL, h.1, grL_set xs i v h.2 hv]

theorem arrSet_good (xs : List JVal) (i : Nat) (v : JVal) (h : goodRaw.grL xs = true)
    (hv : goodRaw v = true) : goodRaw.grL (arrSet xs i v) = true := by
  unfold arrSet
  split
  · exact grL_set xs i v h hv
  · simp [grL_append, h, grL_replicate, goodRaw.grL, hv]

theorem leafWrite_good (res : JVal) (pindex : Option Nat) (last : String) (val : JVal)
    (h : goodRaw res = true) (hv : strOrNum val = true) :
    goodRaw (leafWrite res pindex last val) = true := by
  have hvn := valOrNull_good val hv
  cases pindex with
  | none =>
    cases res <;> simp_all [leafWrite, goodRaw]
    exact objSet_good _ _ _ h hvn
  | some i =>
    cases res with
    | obj fs =>
      simp only [leafWrite]
      simp only [goodRaw] at h
      have hch : goodRaw (objGet last fs) = true := objGet_good fs h last
      cases hc : (if truthy (objGet last fs) then objGet last fs else .arr []) with
      | arr xs =>
        have hxs : goodRaw.grL xs = true := by
          by_cases ht : truthy (objGet last fs)
          · rw [if_pos ht] at hc
            rw [hc] at hch
            simpa [goodRaw] using hch
          · rw [if_neg ht] at hc
            injection hc with h2
            rw [← h2]
            rfl
        simpa [goodRaw] using
          objSet_good fs last _ h (by simpa [goodRaw] using arrSet_good xs i _ hxs hvn)
      | null => simp [goodRaw, h]
      | undef => simp [goodRaw, h]
      | str s => simp [goodRaw, h]
      | num q => simp [goodRaw, h]
      | obj fs2 => simp [goodRaw, h]
    | null => simpa [leafWrite] using h
    | undef => simpa [leafWrite] using h
    | str s => simpa [leafWrite] using h
    | num q => simpa [leafWrite] using h
    | arr xs => simpa [leafWrite] using h

theorem descendWrite_good : ∀ segs res pindex last val, goodRaw res = true →
    strOrNum val = true → goodRaw (descendWrite res segs pindex last val) = true
  | [], res, pindex, last, val, h, hv => by
    simpa [descendWrite] using leafWrite_good res pindex last val h hv
  | (pi, sg) :: rest, res, pindex, last, val, h, hv => by
    cases pi with
    | none =>
      cases res with
      | obj fs =>
        simp only [descendWrite, goodRaw] at h ⊢
        have hch : goodRaw (objGet sg fs) = true := objGet_good fs h sg
        have hch2 : goodRaw (if truthy (objGet sg fs) then objGet sg fs else .obj []) = true := by
          split
          · exact hch
          · rfl
        exact objSet_good fs sg _ h (descendWrite_good rest _ pindex last val hch2 hv)
      | null => simpa [descendWrite] using h
      | undef => simpa [descendWrite] using h
      | str s => simpa [descendWrite] using h
      | num q => simpa [descendWrite] using h
      | arr xs => simpa [descendWrite] using h
    | some i =>
      cases res with
      | obj fs =>
        simp only [descendWrite, goodRaw] at h ⊢
        have hch : goodRaw (objGet sg fs) = true := objGet_good fs h sg
        cases hc : (if truthy (objGet sg fs) then objGet sg fs else .arr []) with
        | arr xs =>
          have hxs : goodRaw.grL xs = true := by
            by_cases ht : truthy (objGet sg fs)
            · rw [if_pos ht] at hc
              rw [hc] at hch
              simpa [goodRaw] using hch
            · rw [if_neg ht] at hc
              injection hc with h2
              rw [← h2]
              rfl
          have helt : goodRaw (arrGet xs i) = true := arrGet_good xs hxs i
          have helt2 : goodRaw (if truthy (arrGet xs i) then arrGet xs i else .obj []) = true := by
            split
            · exact helt
            · rfl
          have hrec := descendWrite_good rest _ pindex last val helt2 hv
          simpa [goodRaw] using
            objSet_good fs sg _ h (by simpa [goodRaw] using arrSet_good xs i _ hxs hrec)
        | null => simp [goodRaw, h]
        | undef => simp [goodRaw, h]
        | str s => simp [goodRaw, h]
        | num q => simp [goodRaw, h]
        | obj fs2 => simp [goodRaw, h]
      | null => simpa [descendWrite] using h
      | undef => simpa [descendWrite] using h
      | str s => simpa [descendWrite] using h
      | num q => simpa [descendWrite] using h
      | arr xs => simpa [descendWrite] using h

theorem addInput_good (res : JVal) (cv : List ChainEntry × JVal) (h : goodRaw res = true)
    (hv : strOrNum cv.2 = true) : goodRaw (addInput res cv) = true := by
  unfold addInput
  obtain ⟨p1, n1⟩ := walkUp cv.1
  cases n1 with
  | none =>
    cases hgl : p1.reverse.getLast? with
    | none => simpa [hgl] using h
    | some s =>
      rcases s with ⟨pindex, last⟩
      simp only [hgl]
      exact descendWrite_good _ res pindex last cv.2 h hv
  | some i =>
    cases hgl : (patchLast p1.reverse i).getLast? with
    | none => simpa [hgl] using h
    | some s =>
      rcases s with ⟨pindex, last⟩
      simp only [hgl]
      exact descendWrite_good _ res pindex last cv.2 h hv

theorem foldl_addInput_good : ∀ (l : List (List ChainEntry × JVal)) (res : JVal),
    goodRaw res = true → (∀ cv ∈ l, strOrNum cv.2 = true) →
    goodRaw (l.foldl addInput res) = true
  | [], res, h, _ => h
  | cv :: l, res, h, hl => by
    simp only [List.foldl_cons]
    exact foldl_addInput_good l _ (addInput_good res cv h (hl cv (by simp)))
      (fun cv' hm => hl cv' (by simp [hm]))

mutual

theorem collect_vals : ∀ ds pchain i cv, cv ∈ collectInputs pchain i ds →
    strOrNum cv.2 = true
  | d :: rest, pchain, i, cv, hm => by
    simp only [collectInputs, List.mem_append] at hm
    cases hm with
    | inl hm => exact collectOne_vals d pchain i cv hm
    | inr hm => exact collect_vals rest pchain (i + 1) cv hm

theorem collectOne_vals : ∀ d pchain i cv, cv ∈ collectInputs.collectOne pchain i d →
    strOrNum cv.2 = true
  | .elt t k kids, pchain, i, cv, hm => by
    simp only [collectInputs.collectOne] at hm
    exact collect_vals kids _ 0 cv hm
  | .textInput s, pchain, i, cv, hm => by
    simp only [collectInputs.collectOne] at hm
    split at hm <;> simp_all [inputValue, strOrNum]
  | .numberInput o, pchain, i, cv, hm => by
    simp only [collectInputs.collectOne] at hm
    split at hm <;> simp_all [inputValue, strOrNum]
  | .selectInput opts, pchain, i, cv, hm => by
    simp only [collectInputs.collectOne] at hm
    split at hm <;> simp_all [inputValue, strOrNum]

end

/-- C8: the serializer stores `null` for every empty text input and every
numeric input holding `0` or nothing (the three left conjuncts are the leaf
conversion and write of lines 148-152 and 203-211), and consequently the
serialized configuration — the object `JSON.stringify` encodes — contains
no empty string and no zero: each of its leaves is a non-empty string, a
non-zero number, or `null`.  This holds for every form, not only for ones
the builder produced. -/
theorem serialized_leaves_good (ds : List Dom) :
    valOrNull (.str "") = .null ∧
    valOrNull (.num 0) = .null ∧
    inputValue (.numberInput none) = some (.num 0) ∧
    goodLeaves (stringifyNorm (allInputsToConfigObject ds)) = true := by
  refine ⟨rfl, by norm_num [valOrNull, truthy], rfl, ?_⟩
  exact goodRaw_norm _ (foldl_addInput_good _ _ rfl (collect_vals ds [] 0))

theorem jsize_pos : ∀ s, 1 ≤ jsize s
  | .null => le_refl 1
  | .undef => le_refl 1
  | .str _ => le_refl 1
  | .num _ => le_refl 1
  | .arr xs => Nat.le_add_right 1 (jsize.jsizeL xs)
  | .obj fs => Nat.le_add_right 1 (jsize.jsizeF fs)

mutual

theorem createItemsFuel_spec : ∀ fuel dfl sel path s d, jsize s ≤ fuel →
    createItemsFuel fuel dfl sel path s d = some (createItemsRecursively dfl sel path s d)
  | fuel, dfl, sel, path, s, d, h => by
    match fuel with
    | 0 => exact absurd (le_trans (jsize_pos s) h) (by omega)
    | fuel + 1 =>
      match s with
      | .obj fields =>
        have hf : jsize.jsizeF fields ≤ fuel := by
          have := h
          simp only [jsize] at this
          omega
        simp only [createItemsFuel.eq_def, createItemsRecursively.eq_def,
          buildFieldsF_spec fuel dfl sel path fields d hf]
      | .arr [] => rw [createItemsFuel.eq_def, createItemsRecursively.eq_def]
      | .arr (item0 :: rest) =>
        have hf : jsize item0 ≤ fuel := by
          have := h
          simp only [jsize, jsize.jsizeL] at this
          omega
        simp only [createItemsFuel.eq_def, createItemsRecursively.eq_def,
          buildEntriesF_spec fuel dfl sel (path ++ ["_"]) item0 (dataEntries d) hf]
      | .str a => rw [createItemsFuel.eq_def, createItemsRecursively.eq_def]
      | .num a => rw [createItemsFuel.eq_def, createItemsRecursively.eq_def]
      | .null => rw [createItemsFuel.eq_def, createItemsRecursively.eq_def]
      | .undef => rw [createItemsFuel.eq_def, createItemsRecursively.eq_def]
termination_by fuel => (fuel, 0)

theorem buildFieldsF_spec : ∀ fuel dfl sel path fields d, jsize.jsizeF fields ≤ fuel →
    buildFieldsF fuel dfl sel path fields d =
      some (createItemsRecursively.buildFields dfl sel path fields d)
  | fuel, dfl, sel, path, [], d, _ => by
    rw [buildFieldsF.eq_def, createItemsRecursively.buildFields.eq_def]
  | fuel, dfl, sel, path, (k, sk) :: rest, d, h => by
    have hsk : jsize sk ≤ fuel := by
      have h1 := jsize_pos sk
      simp only [jsize.jsizeF] at h
      have h2 : 0 ≤ jsize.jsizeF rest := Nat.zero_le _
      omega
    have hrest : jsize.jsizeF rest ≤ fuel := by
      have h1 := jsize_pos sk
      simp only [jsize.jsizeF] at h
      omega
    rw [buildFieldsF.eq_def, createItemsRecursively.buildFields.eq_def]
    simp only [createItemsFuel_spec fuel dfl sel (path ++ [pathComp k]) sk (dataGet d k) hsk,
      buildFieldsF_spec fuel dfl _ path rest d hrest]
termination_by fuel _ _ _ fields => (fuel, fields.length + 1)

theorem buildEntriesF_spec : ∀ fuel dfl sel path item0 ds, jsize item0 ≤ fuel →
    buildEntriesF fuel dfl sel path item0 ds =
      some (createItemsRecursively.buildEntries dfl sel path item0 ds)
  | fuel, dfl, sel, path, item0, [], _ => by
    rw [buildEntriesF.eq_def, createItemsRecursively.buildEntries.eq_def]
  | fuel, dfl, sel, path, item0, d :: ds, h => by
    rw [buildEntriesF.eq_def, createItemsRecursively.buildEntries.eq_def]
    simp only [createItemsFuel_spec fuel dfl sel path item0 d h,
      buildEntriesF_spec fuel dfl _ path item0 ds h]
termination_by fuel _ _ _ _ ds => (fuel, ds.length + 1)

end

mutual

theorem collectInputs_length : ∀ (ds : List Dom) pchain i,
    (collectInputs pchain i ds).length = matchedCount (pchain.any (·.key.isSome)) ds
  | [], _, _ => rfl
  | d :: rest, pchain, i => by
    simp only [collectInputs, matchedCount, List.length_append,
      collectOne_length d pchain i, collectInputs_length rest pchain (i + 1)]

theorem collectOne_length : ∀ (d : Dom) pchain i,
    (collectInputs.collectOne pchain i d).length =
      matchedCount.matchedOne (pchain.any (·.key.isSome)) d
  | .elt t k kids, pchain, i => by
    have := collectInputs_length kids (⟨k, t, i⟩ :: pchain) 0
    simp only [collectInputs.collectOne, matchedCount.matchedOne, this, List.any_cons]
    rw [Bool.or_comm]
  | .textInput s, pchain, i => by
    simp only [collectInputs.collectOne, matchedCount.matchedOne]
    split <;> simp_all
  | .numberInput o, pchain, i => by
    simp only [collectInputs.collectOne, matchedCount.matchedOne]
    split <;> simp_all
  | .selectInput opts, pchain, i => by
    simp only [collectInputs.collectOne, matchedCount.matchedOne]
    split <;> simp_all

end

/-- C6: the composer is a terminating single pass.  The builder, modelled
with explicit fuel for the raw JavaScript recursion, succeeds on every
finite schema document once the fuel reaches the schema's size — so
`createItemsRecursively` terminates on every finite schema and every
configuration — and the serializer collects (hence walks upward from) each
selector-matched input element of the form exactly once. -/
theorem composer_single_pass (fuel : Nat) (dfl : List (String × JVal)) (sel : SelState)
    (path : List String) (s d : JVal) (h : jsize s ≤ fuel) :
    createItemsFuel fuel dfl sel path s d =
      some (createItemsRecursively dfl sel path s d) ∧
    ∀ (ds : List Dom) pchain i,
      (collectInputs pchain i ds).length = matchedCount (pchain.any (·.key.isSome)) ds :=
  ⟨createItemsFuel_spec fuel dfl sel path s d h,
   fun ds pchain i => collectInputs_length ds pchain i⟩

/-- C6 (witness). -/
theorem composer_single_pass_witness :
    createItemsFuel 2 [] [] [] (.obj [("k", .str "s")]) .undef =
      some (createItemsRecursively [] [] [] (.obj [("k", .str "s")]) .undef) :=
  (composer_single_pass 2 [] [] [] (.obj [("k", .str "s")]) .undef
    (by simp [jsize, jsize.jsizeF])).1

theorem buildFields_length : ∀ (fields : List (String × JVal)) dfl sel path data,
    ((createItemsRecursively.buildFields dfl sel path fields data).1).length = fields.length
  | [], _, _, _, _ => by
    rw [createItemsRecursively.buildFields.eq_def]
    rfl
  | (k, sk) :: rest, dfl, sel, path, data => by
    rw [createItemsRecursively.buildFields.eq_def]
    simp only [List.length_cons, buildFields_length rest dfl _ path data]

theorem buildEntries_shape : ∀ (ds : List JVal) dfl sel path item0,
    ((createItemsRecursively.buildEntries dfl sel path item0 ds).1).length = ds.length ∧
    ∀ e ∈ (createItemsRecursively.buildEntries dfl sel path item0 ds).1, Dom.tagOf e = "LI"
  | [], _, _, _, _ => by
    rw [createItemsRecursively.buildEntries.eq_def]
    simp
  | d :: ds, dfl, sel, path, item0 => by
    have ih := buildEntries_shape ds dfl
      (createItemsRecursively dfl sel path item0 d).2 path item0
    rw [createItemsRecursively.buildEntries.eq_def]
    refine ⟨by simp only [List.length_cons, ih.1], fun e he => ?_⟩
    simp only [List.mem_cons] at he
    cases he with
    | inl h => rw [h]; rfl
    | inr h => exact ih.2 e h

/-- C5 (counterexample): a value found in the configuration does *not*
always take precedence over the defaults: for a string field whose
configuration value is the empty string, the field is initialized from
`defaults` instead (line 347 tests `if (data)`, and `""` is falsy). -/
theorem builder_empty_string_uses_default :
    (createItemsRecursively [("k", .str "d")] [] ["k"] (.str "s") (.str "")).1 =
      [Dom.textInput "d"] ∧ ("d" : String) ≠ "" := by
  constructor
  · rw [createItemsRecursively.eq_def]
    simp only [assocGet]
    rfl
  · decide

/-- C5 (amended): the builder handles exactly the four schema node kinds —
any other schema leaf creates nothing.  An object node creates one child
subtree per key; a list node creates an `<ol>` whose entries are `<li>`
elements, one per element of the configuration array, followed by the Add
button; a string node creates a free-form text input, or a `<select>` when
an option list is configured for its path; a number node creates a numeric
input.  Non-empty configuration strings and present (non-null) configuration
numbers initialize the fields, taking precedence over defaults; an empty
string or null falls back to the default. -/
theorem builder_node_kinds (dfl : List (String × JVal)) (sel : SelState) (path : List String)
    (fields : List (String × JVal)) (item0 : JVal) (rest : List JVal)
    (s0 : String) (q0 : Rat) (data : JVal) (s : String) (q : Rat) :
    ((createItemsRecursively dfl sel path (.obj fields) data).1).length = fields.length ∧
    (∃ entries sel2,
      createItemsRecursively dfl sel path (.arr (item0 :: rest)) data =
        ([Dom.elt "OL" none entries, Dom.elt "BUTTON" none []], sel2) ∧
      entries.length = (dataEntries data).length ∧
      ∀ e ∈ entries, Dom.tagOf e = "LI") ∧
    (assocGet (pathToString path) sel = none →
      createItemsRecursively dfl sel path (.str s0) data =
        ([Dom.textInput (freeTextValue dfl (pathToString path) data)], sel)) ∧
    (∀ opts dflt, assocGet (pathToString path) sel = some (opts, dflt) →
      ∃ o rest2, (createItemsRecursively dfl sel path (.str s0) data).1 =
        Dom.selectInput o :: rest2) ∧
    (createItemsRecursively dfl sel path (.num q0) data =
      ([Dom.numberInput (numInputValue dfl (pathToString path) data)], sel)) ∧
    (s ≠ "" → freeTextValue dfl (pathToString path) (.str s) = s) ∧
    (numInputValue dfl (pathToString path) (.num q) = some q) ∧
    (createItemsRecursively dfl sel path .null data = ([], sel)) ∧
    (createItemsRecursively dfl sel path .undef data = ([], sel)) := by
  refine ⟨?_, ?_, ?_, ?_, ?_, ?_, ?_, ?_, ?_⟩
  · rw [createItemsRecursively.eq_def]
    exact buildFields_length fields dfl sel path data
  · refine ⟨(createItemsRecursively.buildEntries dfl sel (path ++ ["_"]) item0
      (dataEntries data)).1,
      (createItemsRecursively.buildEntries dfl sel (path ++ ["_"]) item0
        (dataEntries data)).2, ?_, ?_, ?_⟩
    · rw [createItemsRecursively.eq_def]
    · exact (buildEntries_shape (dataEntries data) dfl sel (path ++ ["_"]) item0).1
    · exact (buildEntries_shape (dataEntries data) dfl sel (path ++ ["_"]) item0).2
  · intro h
    rw [createItemsRecursively.eq_def]
    simp [h]
  · intro opts dflt h
    rw [createItemsRecursively.eq_def]
    simp only [h]
    split
    · exact ⟨_, _, rfl⟩
    · exact ⟨_, _, rfl⟩
  · rw [createItemsRecursively.eq_def]
  · intro hs
    simp [freeTextValue, truthyStr, truthy, jsDisplay, hs]
  · simp [numInputValue, jsNumValue]
    intro hq
    simp [truthy, hq]
  · rw [createItemsRecursively.eq_def]
  · rw [createItemsRecursively.eq_def]

/-- C5 (witness). -/
theorem builder_node_kinds_witness :
    ((createItemsRecursively [] [] [] (.obj [("k", .str "s")]) .undef).1).length = 1 ∧
    freeTextValue [] (pathToString []) (.str "v") = "v" := by
  have h := builder_node_kinds [] [] [] [("k", .str "s")] (.str "s") [] "s" 0 (.undef) "v" 0
  exact ⟨h.1, h.2.2.2.2.2.1 (by decide)⟩

theorem createSelect_filter_none : ∀ (opts : List (String × String)) (v : String),
    (opts.map (·.1)).contains v = false →
    ((opts.map fun od =>
      (⟨od.1, if od.2 == "" then od.1 else od.1 ++ " - " ++ od.2,
        some od.1 == some v⟩ : SelOpt)).filter (·.chosen)) = []
  | [], _, _ => rfl
  | od :: opts, v, h => by
    simp only [List.map_cons, List.contains_cons, Bool.or_eq_false_iff] at h
    simp only [List.map_cons, List.filter_cons]
    rw [createSelect_filter_none opts v h.2]
    have hne : (some od.1 == some v) = false := by
      simp only [beq_eq_false_iff_ne, ne_eq, Option.some.injEq]
      intro he
      rw [he] at h
      simp at h
    simp [hne]

theorem inputValue_createSelect_append (opts : List (String × String)) (v dsc : String)
    (h : (opts.map (·.1)).contains v = false) :
    inputValue (createSelect (opts ++ [(v, dsc)]) (some v)) = some (.str v) := by
  simp only [createSelect, inputValue, List.map_append, List.map_cons, List.map_nil]
  simp only [selectValue, List.filter_append, createSelect_filter_none opts v h]
  simp [List.filter]

theorem str_select_append_build (sel : SelState) (dfl : List (String × JVal))
    (path : List String) (opts : List (String × String)) (dflt : String) (v s0 : String)
    (hv : v ≠ "") (hmem : (opts.map (·.1)).contains v = false)
    (hsel : assocGet (pathToString path) sel = some (opts, dflt)) :
    createItemsRecursively dfl sel path (.str s0) (.str v) =
      (createSelect (opts ++ [(v, "")]) (some v) ::
        (if allRqOptions (opts ++ [(v, "")]) then [Dom.elt "BUTTON" none []] else []),
       assocSet (pathToString path) (opts ++ [(v, "")], dflt) sel) := by
  rw [createItemsRecursively.eq_def]
  simp only [hsel, stringSelectParts, truthyStr, truthy, jsDisplay]
  have hbv : (v == "") = false := by simpa using hv
  simp only [hbv, Bool.not_false, if_true, hmem, Bool.false_eq_true, if_false]
  split <;> rfl

/-- C10 (counterexample): loading followed by serializing does *not*
preserve the value for *every* string: the empty string — absent from the
option list — is not appended (line 287 tests `if (data)` and `""` is
falsy), the select falls back to the configured default, and serialization
returns that default instead. -/
theorem select_empty_string_not_preserved :
    allInputsToConfigObject (loadDocStructureFromObject []
      [("k", ([("a", "")], "a"))] (.obj [("k", .str "s")]) (.obj [("k", .str "")])).1 =
      .obj [("k", .str "a")] ∧ ("a" : String) ≠ "" := by
  constructor
  · simp +decide [loadDocStructureFromObject, createItemsRecursively,
      createItemsRecursively.buildFields, createItemsRecursively.buildEntries,
      dataGet, objGet, pathComp, pathToString, assocGet, freeTextValue, truthyStr,
      truthy, jsDisplay, dataEntries, allInputsToConfigObject, collectInputs,
      collectInputs.collectOne, addInput, walkUp, walkStep, patchLast, descendWrite,
      leafWrite, valOrNull, objSet, arrGet, arrSet, inputValue, selectValue,
      Dom.tagOf, stringSelectParts, selectedValue, createSelect, allRqOptions]
  · decide

/-- C10 (amended): when a *non-empty* configuration value for a
select-backed string field is not among the configured options, the value
is appended as an additional option with empty description and marked
selected (both in the rendered `<select>` and in the mutated `selects`
state), the element's value is exactly the configuration value, and loading
followed by serializing preserves the value for every non-empty string —
not only for values of the predefined option list.  (The empty string is
the sole exception, see the counterexample.) -/
theorem select_missing_value_preserved (sel : SelState) (dfl : List (String × JVal))
    (path : List String) (opts : List (String × String)) (dflt : String) (v s0 : String)
    (hv : v ≠ "") (hmem : (opts.map (·.1)).contains v = false)
    (hsel : assocGet (pathToString path) sel = some (opts, dflt)) :
    createItemsRecursively dfl sel path (.str s0) (.str v) =
      (createSelect (opts ++ [(v, "")]) (some v) ::
        (if allRqOptions (opts ++ [(v, "")]) then [Dom.elt "BUTTON" none []] else []),
       assocSet (pathToString path) (opts ++ [(v, "")], dflt) sel) ∧
    inputValue (createSelect (opts ++ [(v, "")]) (some v)) = some (.str v) ∧
    (∀ (dfl2 : List (String × JVal)) (sel2 : SelState) opts2 dflt2,
      assocGet (pathToString ["k"]) sel2 = some (opts2, dflt2) →
      (opts2.map (·.1)).contains v = false →
      allInputsToConfigObject (loadDocStructureFromObject dfl2 sel2
        (.obj [("k", .str s0)]) (.obj [("k", .str v)])).1 = .obj [("k", .str v)]) := by
  refine ⟨str_select_append_build sel dfl path opts dflt v s0 hv hmem hsel,
    inputValue_createSelect_append opts v "" hmem, ?_⟩
  intro dfl2 sel2 opts2 dflt2 hsel2 hmem2
  unfold loadDocStructureFromObject
  simp only [createItemsRecursively.eq_def]
  rw [createItemsRecursively.buildFields.eq_def]
  have hpc : (([] : List String) ++ [pathComp "k"]) = ["k"] := rfl
  have hdg : dataGet (.obj [("k", .str v)]) "k" = .str v := rfl
  simp only [hpc, hdg, str_select_append_build sel2 dfl2 ["k"] opts2 dflt2 v s0 hv hmem2 hsel2]
  rw [createItemsRecursively.buildFields.eq_def]
  have hbv : (v == "") = false := by simpa using hv
  obtain ⟨o, hSo⟩ : ∃ o, createSelect (opts2 ++ [(v, "")]) (some v) = .selectInput o :=
    ⟨_, rfl⟩
  have hval : inputValue (.selectInput o) = some (.str v) := by
    rw [← hSo]
    exact inputValue_createSelect_append opts2 v "" hmem2
  rw [hSo]
  split
  all_goals
    simp +decide [allInputsToConfigObject, collectInputs, collectInputs.collectOne,
      hval, addInput, walkUp, walkStep, patchLast, descendWrite, leafWrite, valOrNull,
      truthy, objSet, hbv, Dom.tagOf]
  all_goals
    split <;> simp [collectInputs, collectInputs.collectOne]

/-- C10 (witness). -/
theorem select_missing_value_preserved_witness :
    allInputsToConfigObject (loadDocStructureFromObject [] [("k", ([("a", "")], "a"))]
      (.obj [("k", .str "s")]) (.obj [("k", .str "zzz")])).1 = .obj [("k", .str "zzz")] :=
  (select_missing_value_preserved [("k", ([("a", "")], "a"))] [] ["k"] [("a", "")] "a"
    "zzz" "s" (by decide) (by decide) rfl).2.2
    [] [("k", ([("a", "")], "a"))] [("a", "")] "a" rfl (by decide)

theorem objGet_objSet_self : ∀ (fs : List (String × JVal)) k v,
    objGet k (objSet fs k v) = v
  | [], k, v => by simp [objSet, objGet]
  | (k', v') :: fs, k, v => by
    by_cases h : k' == k <;> simp [objSet, objGet, h, objGet_objSet_self fs k v]

theorem objSet_objSet_self : ∀ (fs : List (String × JVal)) k v w,
    objSet (objSet fs k v) k w = objSet fs k w
  | [], k, v, w => by simp [objSet]
  | (k', v') :: fs, k, v, w => by
    by_cases h : k' == k <;> simp [objSet, h, objSet_objSet_self fs k v w]

theorem objSet_fresh : ∀ (fs : List (String × JVal)) k v,
    (fs.map Prod.fst).contains k = false → objSet fs k v = fs ++ [(k, v)]
  | [], k, v, _ => rfl
  | (k', v') :: fs, k, v, h => by
    simp only [List.map_cons, List.contains_cons, Bool.or_eq_false_iff] at h
    have hne : (k' == k) = false := by
      rcases h with ⟨h1, _⟩
      rw [beq_eq_false_iff_ne] at h1 ⊢
      exact fun he => h1 he.symm
    simp [objSet, hne, objSet_fresh fs k v h.2]

theorem objGet_fresh : ∀ (fs : List (String × JVal)) k,
    (fs.map Prod.fst).contains k = false → objGet k fs = .undef
  | [], k, _ => rfl
  | (k', v') :: fs, k, h => by
    simp only [List.map_cons, List.contains_cons, Bool.or_eq_false_iff] at h
    have hne : (k' == k) = false := by
      rcases h with ⟨h1, _⟩
      rw [beq_eq_false_iff_ne] at h1 ⊢
      exact fun he => h1 he.symm
    simp [objGet, hne, objGet_fresh fs k h.2]

theorem list_set_append_right (l l' : List JVal) (n : Nat) (a : JVal)
    (h : l.length ≤ n) : (l ++ l').set n a = l ++ l'.set (n - l.length) a := by
  induction l generalizing n with
  | nil => simp
  | cons x xs ih =>
    cases n with
    | zero => simp at h
    | succ m =>
      simp only [List.cons_append, List.set_cons_succ, List.length_cons]
      rw [ih m (by simpa using h)]
      rw [Nat.succ_sub_succ]

theorem length_arrSet (xs : List JVal) (j : Nat) (v : JVal) (h : xs.length ≤ j) :
    (arrSet xs j v).length = j + 1 := by
  unfold arrSet
  rcases Nat.lt_or_ge j xs.length with hlt | hge
  · omega
  · rw [if_neg (by omega)]
    simp
    omega

theorem arrGet_undef_of_len_le (xs : List JVal) (j : Nat) (h : xs.length ≤ j) :
    arrGet xs j = .undef := by
  unfold arrGet
  rw [List.getD_eq_getElem?_getD, List.getElem?_eq_none (by omega)]
  rfl

theorem arrGet_arrSet_self (xs : List JVal) (j : Nat) (v : JVal) :
    arrGet (arrSet xs j v) j = v := by
  unfold arrSet arrGet
  split
  · rw [List.getD_eq_getElem?_getD, List.getElem?_set_self (by omega)]
    rfl
  · rename_i h
    rw [List.getD_append_right _ _ _ _ (by simp; omega)]
    have hz : j - (xs.length + (j - xs.length)) = 0 := by omega
    simp [hz]

theorem arrSet_arrSet_self (xs : List JVal) (j : Nat) (v w : JVal) :
    arrSet (arrSet xs j v) j w = arrSet xs j w := by
  unfold arrSet
  split
  · simp_all [List.set_set]
  · rename_i h
    rw [if_pos (by simp; omega)]
    rw [list_set_append_right _ _ _ _ (by simp; omega)]
    have hz : j - (xs.length + (j - xs.length)) = 0 := by omega
    simp [hz]

theorem descendWrite_obj_shape : ∀ (segs : List Seg) (fs : List (String × JVal))
    (pi : Option Nat) (k : String) (v : JVal),
    ∃ fs2, descendWrite (.obj fs) segs pi k v = .obj fs2 := by
  intro segs fs pi k v
  cases segs with
  | nil =>
    cases pi with
    | none => exact ⟨_, rfl⟩
    | some i =>
      simp only [descendWrite, leafWrite]
      split <;> exact ⟨_, rfl⟩
  | cons s rest =>
    rcases s with ⟨pi2, sg⟩
    cases pi2 with
    | none => exact ⟨_, rfl⟩
    | some i =>
      simp only [descendWrite]
      split <;> exact ⟨_, rfl⟩

theorem segWriteP_obj_shape (w : List Seg × JVal) (fs : List (String × JVal)) :
    ∃ fs2, segWriteP (.obj fs) w = .obj fs2 := by
  unfold segWriteP
  cases hgl : w.1.getLast? with
  | none => exact ⟨fs, rfl⟩
  | some s =>
    rcases s with ⟨pi, kl⟩
    exact descendWrite_obj_shape w.1.dropLast fs pi kl w.2

theorem segWriteP_nil_segs (fs : List (String × JVal)) (v : JVal) :
    segWriteP (.obj fs) ([], v) = .obj fs := rfl

theorem segWriteP_single_none (fs : List (String × JVal)) (k : String) (v : JVal) :
    segWriteP (.obj fs) ([(none, k)], v) = .obj (objSet fs k (valOrNull v)) := rfl

theorem leafWrite_some_arr (fs : List (String × JVal)) (j : Nat) (k : String) (v : JVal)
    (xs : List JVal) (h : objInitArr (objGet k fs) = .arr xs) :
    leafWrite (.obj fs) (some j) k v = .obj (objSet fs k (.arr (arrSet xs j (valOrNull v)))) := by
  unfold objInitArr at h
  simp only [leafWrite, h]

theorem segWriteP_single_some (fs : List (String × JVal)) (j : Nat) (k : String) (v : JVal)
    (xs : List JVal) (h : objInitArr (objGet k fs) = .arr xs) :
    segWriteP (.obj fs) ([(some j, k)], v) =
      .obj (objSet fs k (.arr (arrSet xs j (valOrNull v)))) := by
  unfold segWriteP
  simp only [List.getLast?_singleton, List.dropLast_single]
  exact leafWrite_some_arr fs j k v xs h

theorem segWriteP_cons_none (k : String) (γ : List Seg) (hγ : γ ≠ [])
    (fs : List (String × JVal)) (v : JVal) :
    segWriteP (.obj fs) ((none, k) :: γ, v) =
      .obj (objSet fs k (segWriteP (objInit (objGet k fs)) (γ, v))) := by
  obtain ⟨q, γ', rfl⟩ : ∃ q γ', γ = q :: γ' := by
    cases γ with
    | nil => exact absurd rfl hγ
    | cons q γ' => exact ⟨q, γ', rfl⟩
  unfold segWriteP
  rw [List.getLast?_cons_cons]
  cases hgl : (q :: γ').getLast? with
  | none => simp at hgl
  | some s =>
    rcases s with ⟨pi, kl⟩
    simp only []
    rw [show ((none, k) :: q :: γ').dropLast = (none, k) :: (q :: γ').dropLast from rfl]
    simp only [descendWrite, objInit]

theorem segWriteP_cons_some (j : Nat) (k : String) (γ : List Seg) (hγ : γ ≠ [])
    (fs : List (String × JVal)) (v : JVal) (xs : List JVal)
    (h : objInitArr (objGet k fs) = .arr xs) :
    segWriteP (.obj fs) ((some j, k) :: γ, v) =
      .obj (objSet fs k (.arr (arrSet xs j
        (segWriteP (objInit (arrGet xs j)) (γ, v))))) := by
  obtain ⟨q, γ', rfl⟩ : ∃ q γ', γ = q :: γ' := by
    cases γ with
    | nil => exact absurd rfl hγ
    | cons q γ' => exact ⟨q, γ', rfl⟩
  unfold objInitArr at h
  unfold segWriteP
  rw [List.getLast?_cons_cons]
  cases hgl : (q :: γ').getLast? with
  | none => simp at hgl
  | some s =>
    rcases s with ⟨pi, kl⟩
    simp only []
    rw [show ((some j, k) :: q :: γ').dropLast = (some j, k) :: (q :: γ').dropLast from rfl]
    simp only [descendWrite, h, objInit]

theorem objInit_obj (fs : List (String × JVal)) : objInit (.obj fs) = .obj fs := rfl

theorem fold_map_cons_none : ∀ (ws : List (List Seg × JVal)) (fs : List (String × JVal))
    (k : String), (∀ w ∈ ws, w.1 ≠ []) →
    (objGet k fs = .undef ∨ ∃ fs0, objGet k fs = .obj fs0) →
    List.foldl segWriteP (.obj fs) (ws.map fun w => ((none, k) :: w.1, w.2)) =
      (match ws with
       | [] => .obj fs
       | _ => .obj (objSet fs k (List.foldl segWriteP (objInit (objGet k fs)) ws)))
  | [], fs, k, _, _ => rfl
  | w :: ws', fs, k, hne, hobj => by
    simp only [List.map_cons, List.foldl_cons]
    rw [segWriteP_cons_none k w.1 (hne w (by simp)) fs w.2]
    have hIobj : ∃ fsI, objInit (objGet k fs) = .obj fsI := by
      rcases hobj with h | ⟨fs0, h⟩
      · exact ⟨[], by rw [h]; rfl⟩
      · exact ⟨fs0, by rw [h]; rfl⟩
    obtain ⟨fsI, hI⟩ := hIobj
    rw [hI]
    obtain ⟨fsX, hX⟩ := segWriteP_obj_shape (w.1, w.2) fsI
    rw [hX]
    rw [fold_map_cons_none ws' (objSet fs k (.obj fsX)) k
      (fun w' hw' => hne w' (by simp [hw']))
      (Or.inr ⟨fsX, objGet_objSet_self fs k (.obj fsX)⟩)]
    cases ws' with
    | nil => rfl
    | cons w2 ws2 =>
      simp only [objGet_objSet_self, objInit_obj, objSet_objSet_self, List.foldl_cons,
        hI, hX]

theorem fold_map_cons_some : ∀ (ws : List (List Seg × JVal)) (fs : List (String × JVal))
    (j : Nat) (k : String) (xs : List JVal), (∀ w ∈ ws, w.1 ≠ []) →
    objInitArr (objGet k fs) = .arr xs →
    (arrGet xs j = .undef ∨ ∃ fs0, arrGet xs j = .obj fs0) →
    List.foldl segWriteP (.obj fs) (ws.map fun w => ((some j, k) :: w.1, w.2)) =
      (match ws with
       | [] => .obj fs
       | _ => .obj (objSet fs k (.arr (arrSet xs j
           (List.foldl segWriteP (objInit (arrGet xs j)) ws)))))
  | [], fs, j, k, xs, _, _, _ => rfl
  | w :: ws', fs, j, k, xs, hne, harr, helem => by
    simp only [List.map_cons, List.foldl_cons]
    rw [segWriteP_cons_some j k w.1 (hne w (by simp)) fs w.2 xs harr]
    have hIobj : ∃ fsI, objInit (arrGet xs j) = .obj fsI := by
      rcases helem with h | ⟨fs0, h⟩
      · exact ⟨[], by rw [h]; rfl⟩
      · exact ⟨fs0, by rw [h]; rfl⟩
    obtain ⟨fsI, hI⟩ := hIobj
    rw [hI]
    obtain ⟨fsX, hX⟩ := segWriteP_obj_shape (w.1, w.2) fsI
    rw [hX]
    have hget : objGet k (objSet fs k (.arr (arrSet xs j (.obj fsX)))) =
        .arr (arrSet xs j (.obj fsX)) := objGet_objSet_self _ _ _
    rw [fold_map_cons_some ws' (objSet fs k (.arr (arrSet xs j (.obj fsX)))) j k
      (arrSet xs j (.obj fsX))
      (fun w' hw' => hne w' (by simp [hw']))
      (by rw [hget]; rfl)
      (Or.inr ⟨fsX, arrGet_arrSet_self xs j (.obj fsX)⟩)]
    cases ws' with
    | nil => rfl
    | cons w2 ws2 =>
      simp only [objSet_objSet_self, arrGet_arrSet_self, objInit_obj,
        arrSet_arrSet_self, List.foldl_cons, hI, hX]

theorem entriesArr_allNone : ∀ (es : List (Option JVal)) (xs : List JVal) (j : Nat),
    es.all Option.isNone = true → entriesArr xs j es = xs
  | [], xs, j, _ => rfl
  | some v :: es, xs, j, h => by simp at h
  | none :: es, xs, j, h => by
    simp only [List.all_cons, Option.isNone_none, Bool.true_and] at h
    simpa [entriesArr] using entriesArr_allNone es xs (j + 1) h

theorem dropTrailingNones_cons_of_not_allNone (x : Option JVal) (es : List (Option JVal))
    (h : es.all Option.isNone = false) :
    dropTrailingNones (x :: es) = x :: dropTrailingNones es := by
  unfold dropTrailingNones
  rw [List.reverse_cons, List.dropWhile_append]
  have hne : ¬(es.reverse.dropWhile (fun o => o.isNone)).isEmpty = true := by
    intro hem
    rw [List.isEmpty_iff] at hem
    rw [List.dropWhile_eq_nil_iff] at hem
    have : es.all Option.isNone = true := by
      rw [List.all_eq_true]
      intro o ho
      exact hem o (by simpa using ho)
    rw [this] at h
    simp at h
  rw [if_neg hne]
  simp

theorem dropTrailingNones_some_of_allNone (v : JVal) (es : List (Option JVal))
    (h : es.all Option.isNone = true) :
    dropTrailingNones (some v :: es) = [some v] := by
  unfold dropTrailingNones
  rw [List.reverse_cons, List.dropWhile_append]
  have hem : (es.reverse.dropWhile (fun o => o.isNone)).isEmpty = true := by
    rw [List.isEmpty_iff, List.dropWhile_eq_nil_iff]
    intro o ho
    rw [List.all_eq_true] at h
    exact h o (by simpa using ho)
  rw [if_pos hem]
  simp

theorem entriesArr_bridge : ∀ (es : List (Option JVal)) (xs : List JVal) (j : Nat),
    xs.length ≤ j → es.all Option.isNone = false →
    entriesArr xs j es =
      xs ++ List.replicate (j - xs.length) .undef ++
        (dropTrailingNones es).map (·.getD .undef)
  | [], xs, j, hle, hall => by simp at hall
  | some v :: es, xs, j, hle, hall => by
    simp only [entriesArr]
    cases hres : es.all Option.isNone with
    | true =>
      rw [entriesArr_allNone es _ _ hres, dropTrailingNones_some_of_allNone v es hres]
      unfold arrSet
      rw [if_neg (by omega)]
      simp
    | false =>
      rw [entriesArr_bridge es (arrSet xs j v) (j + 1)
        (by rw [length_arrSet xs j v hle]) hres]
      rw [dropTrailingNones_cons_of_not_allNone _ es hres]
      unfold arrSet
      rw [if_neg (by omega)]
      have hlen : (xs ++ List.replicate (j - xs.length) JVal.undef ++ [v]).length = j + 1 := by
        simp
        omega
      rw [hlen, Nat.sub_self]
      simp
  | none :: es, xs, j, hle, hall => by
    simp only [entriesArr]
    simp only [List.all_cons, Option.isNone_none, Bool.true_and] at hall
    rw [entriesArr_bridge es xs (j + 1) (by omega) hall]
    rw [dropTrailingNones_cons_of_not_allNone _ es hall]
    have : List.replicate (j + 1 - xs.length) JVal.undef =
        List.replicate (j - xs.length) JVal.undef ++ [JVal.undef] := by
      have h2 : j + 1 - xs.length = (j - xs.length) + 1 := by omega
      rw [h2, List.replicate_succ']
    rw [this]
    simp

set_option maxHeartbeats 2000000

theorem contains_false_forall : ∀ (l : List String) (a : String),
    l.contains a = false → ∀ x ∈ l, ¬ x = a
  | [], a, _, x, hx => by simp at hx
  | b :: l, a, h, x, hx => by
    simp only [List.contains_cons, Bool.or_eq_false_iff] at h
    cases hx with
    | head =>
      intro he
      rw [beq_eq_false_iff_ne] at h
      exact h.1 he.symm
    | tail _ hm => exact contains_false_forall l a h.2 x hm

theorem rwEntries_segs_ne : ∀ (ds : List JVal) (j : Nat) dfl sel path k i0,
    ∀ w ∈ (rwEntries dfl sel path k i0 ds j).1, w.1 ≠ []
  | [], j, dfl, sel, path, k, i0, w, hw => by
    rw [rwEntries.eq_def] at hw
    simp at hw
  | dj :: ds', j, dfl, sel, path, k, i0, w, hw => by
    rw [rwEntries.eq_def] at hw
    simp only [List.mem_append, List.mem_map] at hw
    cases hw with
    | inl h =>
      obtain ⟨w0, _, hw0⟩ := h
      rw [← hw0]
      simp
    | inr h => exact rwEntries_segs_ne ds' (j + 1) dfl _ path k i0 w h

theorem rwFields_segs_ne : ∀ (fields : List (String × JVal)) dfl sel path data,
    ∀ w ∈ (rwFields dfl sel path fields data).1, w.1 ≠ []
  | [], dfl, sel, path, data, w, hw => by
    rw [rwFields.eq_def] at hw
    simp at hw
  | (k, sk) :: rest, dfl, sel, path, data, w, hw => by
    rw [rwFields.eq_def] at hw
    simp only [List.mem_append] at hw
    rcases hw with hw | hw
    · cases sk with
      | arr items =>
        cases items with
        | nil => simp at hw
        | cons i0 t => exact rwEntries_segs_ne _ 0 dfl sel _ k i0 w hw
      | obj f2 =>
        simp only [List.mem_map] at hw
        obtain ⟨w0, _, hw0⟩ := hw
        rw [← hw0]
        simp
      | str s0 =>
        simp only [List.mem_map] at hw
        obtain ⟨w0, _, hw0⟩ := hw
        rw [← hw0]
        simp
      | num q0 =>
        simp only [List.mem_map] at hw
        obtain ⟨w0, _, hw0⟩ := hw
        rw [← hw0]
        simp
      | null =>
        simp only [List.mem_map] at hw
        obtain ⟨w0, _, hw0⟩ := hw
        rw [← hw0]
        simp
      | undef =>
        simp only [List.mem_map] at hw
        obtain ⟨w0, _, hw0⟩ := hw
        rw [← hw0]
        simp
    · exact rwFields_segs_ne rest dfl _ path data w hw

theorem contains_append_false (l1 l2 : List String) (a : String)
    (h1 : l1.contains a = false) (h2 : l2.contains a = false) :
    (l1 ++ l2).contains a = false := by
  induction l1 with
  | nil => simpa using h2
  | cons b l ih =>
    simp only [List.contains_cons, Bool.or_eq_false_iff] at h1
    simp only [List.cons_append, List.contains_cons, Bool.or_eq_false_iff]
    exact ⟨h1.1, ih h1.2⟩

mutual

theorem pcItemNone : ∀ (s d : JVal) (sel : SelState) (dfl : List (String × JVal))
    (path : List String) (fs : List (String × JVal)) (k : String),
    notArr s = true → wfSchema s = true → objGet k fs = .undef →
    (List.foldl segWriteP (.obj fs)
      ((relWrites dfl sel path s d).1.map fun w => ((none, k) :: w.1, w.2)) =
      (match (rtSpec dfl sel path s d).1 with
       | none => .obj fs
       | some v => .obj (objSet fs k v)) ∧
    (relWrites dfl sel path s d).2 = (rtSpec dfl sel path s d).2 ∧
    ((relWrites dfl sel path s d).1 = [] ↔ (rtSpec dfl sel path s d).1 = none))
  | .str s0, d, sel, dfl, path, fs, k, hna, hwf, hk => by
    rw [relWrites.eq_def, rtSpec.eq_def]
    simp only []
    cases has : assocGet (pathToString path) sel with
    | some cfg =>
      rcases cfg with ⟨opts, dflt⟩
      simp only [has, List.map_cons, List.map_nil, List.foldl_cons, List.foldl_nil,
        segWriteP_single_none]
      exact ⟨by trivial, by trivial, by simp⟩
    | none =>
      simp only [has, List.map_cons, List.map_nil, List.foldl_cons, List.foldl_nil,
        segWriteP_single_none]
      exact ⟨by trivial, by trivial, by simp⟩
  | .num q0, d, sel, dfl, path, fs, k, hna, hwf, hk => by
    rw [relWrites.eq_def, rtSpec.eq_def]
    simp only [List.map_cons, List.map_nil, List.foldl_cons, List.foldl_nil,
      segWriteP_single_none]
    exact ⟨by trivial, by trivial, by simp⟩
  | .null, d, sel, dfl, path, fs, k, hna, hwf, hk => by
    rw [relWrites.eq_def, rtSpec.eq_def]
    exact ⟨by trivial, by trivial, by simp⟩
  | .undef, d, sel, dfl, path, fs, k, hna, hwf, hk => by
    rw [relWrites.eq_def, rtSpec.eq_def]
    exact ⟨by trivial, by trivial, by simp⟩
  | .arr items, d, sel, dfl, path, fs, k, hna, hwf, hk => by simp [notArr] at hna
  | .obj fields, d, sel, dfl, path, fs, k, hna, hwf, hk => by
    rw [relWrites.eq_def, rtSpec.eq_def]
    simp only []
    have hwfF : wfSchema.wfFields fields = true := by
      rw [wfSchema.eq_def] at hwf
      simpa using hwf
    obtain ⟨hf1, hf2, hf3⟩ := pcFields fields d sel [] dfl path hwfF (by simp)
    have hne := rwFields_segs_ne fields dfl sel path d
    rw [fold_map_cons_none _ fs k hne (Or.inl hk)]
    refine ⟨?_, hf2, ?_⟩
    · cases hrw : (rwFields dfl sel path fields d).1 with
      | nil =>
        have hrt : (rtSpec.rtFields dfl sel path fields d).1 = [] := hf3.mp hrw
        simp [hrw, hrt]
      | cons w ws =>
        have hrt : ¬(rtSpec.rtFields dfl sel path fields d).1 = [] := by
          intro hemp
          rw [hf3.mpr hemp] at hrw
          exact List.noConfusion hrw
        have hrtE : (rtSpec.rtFields dfl sel path fields d).1.isEmpty = false := by
          cases hc : (rtSpec.rtFields dfl sel path fields d).1 with
          | nil => exact absurd hc hrt
          | cons a as => rfl
        rw [hk]
        rw [show objInit JVal.undef = .obj [] from rfl]
        rw [← hrw, hf1]
        simp only [List.nil_append]
        simp [hrw, hrtE]
    · cases hrw : (rwFields dfl sel path fields d).1 with
      | nil =>
        have hrt : (rtSpec.rtFields dfl sel path fields d).1 = [] := hf3.mp hrw
        simp [hrt]
      | cons w ws =>
        have hrt : ¬(rtSpec.rtFields dfl sel path fields d).1 = [] := by
          intro hemp
          rw [hf3.mpr hemp] at hrw
          exact List.noConfusion hrw
        have hrtE : (rtSpec.rtFields dfl sel path fields d).1.isEmpty = false := by
          cases hc : (rtSpec.rtFields dfl sel path fields d).1 with
          | nil => exact absurd hc hrt
          | cons a as => rfl
        simp [hrw, hrtE]
termination_by s => (sizeOf s, 0, 0)

theorem pcItemSome : ∀ (s d : JVal) (sel : SelState) (dfl : List (String × JVal))
    (path : List String) (fs : List (String × JVal)) (k : String) (xs : List JVal) (j : Nat),
    notArr s = true → wfSchema s = true →
    objInitArr (objGet k fs) = .arr xs → arrGet xs j = .undef →
    (List.foldl segWriteP (.obj fs)
      ((relWrites dfl sel path s d).1.map fun w => ((some j, k) :: w.1, w.2)) =
      (match (rtSpec dfl sel path s d).1 with
       | none => .obj fs
       | some v => .obj (objSet fs k (.arr (arrSet xs j v)))) ∧
    (relWrites dfl sel path s d).2 = (rtSpec dfl sel path s d).2 ∧
    ((relWrites dfl sel path s d).1 = [] ↔ (rtSpec dfl sel path s d).1 = none))
  | .str s0, d, sel, dfl, path, fs, k, xs, j, hna, hwf, hx, hj => by
    rw [relWrites.eq_def, rtSpec.eq_def]
    simp only []
    cases has : assocGet (pathToString path) sel with
    | some cfg =>
      rcases cfg with ⟨opts, dflt⟩
      simp only [has, List.map_cons, List.map_nil, List.foldl_cons, List.foldl_nil,
        segWriteP_single_some _ _ _ _ _ hx]
      exact ⟨by trivial, by trivial, by simp⟩
    | none =>
      simp only [has, List.map_cons, List.map_nil, List.foldl_cons, List.foldl_nil,
        segWriteP_single_some _ _ _ _ _ hx]
      exact ⟨by trivial, by trivial, by simp⟩
  | .num q0, d, sel, dfl, path, fs, k, xs, j, hna, hwf, hx, hj => by
    rw [relWrites.eq_def, rtSpec.eq_def]
    simp only [List.map_cons, List.map_nil, List.foldl_cons, List.foldl_nil,
      segWriteP_single_some _ _ _ _ _ hx]
    exact ⟨by trivial, by trivial, by simp⟩
  | .null, d, sel, dfl, path, fs, k, xs, j, hna, hwf, hx, hj => by
    rw [relWrites.eq_def, rtSpec.eq_def]
    exact ⟨by trivial, by trivial, by simp⟩
  | .undef, d, sel, dfl, path, fs, k, xs, j, hna, hwf, hx, hj => by
    rw [relWrites.eq_def, rtSpec.eq_def]
    exact ⟨by trivial, by trivial, by simp⟩
  | .arr items, d, sel, dfl, path, fs, k, xs, j, hna, hwf, hx, hj => by simp [notArr] at hna
  | .obj fields, d, sel, dfl, path, fs, k, xs, j, hna, hwf, hx, hj => by
    rw [relWrites.eq_def, rtSpec.eq_def]
    simp only []
    have hwfF : wfSchema.wfFields fields = true := by
      rw [wfSchema.eq_def] at hwf
      simpa using hwf
    obtain ⟨hf1, hf2, hf3⟩ := pcFields fields d sel [] dfl path hwfF (by simp)
    have hne := rwFields_segs_ne fields dfl sel path d
    rw [fold_map_cons_some _ fs j k xs hne hx (Or.inl hj)]
    refine ⟨?_, hf2, ?_⟩
    · cases hrw : (rwFields dfl sel path fields d).1 with
      | nil =>
        have hrt : (rtSpec.rtFields dfl sel path fields d).1 = [] := hf3.mp hrw
        simp [hrw, hrt]
      | cons w ws =>
        have hrt : ¬(rtSpec.rtFields dfl sel path fields d).1 = [] := by
          intro hemp
          rw [hf3.mpr hemp] at hrw
          exact List.noConfusion hrw
        have hrtE : (rtSpec.rtFields dfl sel path fields d).1.isEmpty = false := by
          cases hc : (rtSpec.rtFields dfl sel path fields d).1 with
          | nil => exact absurd hc hrt
          | cons a as => rfl
        rw [hj]
        rw [show objInit JVal.undef = .obj [] from rfl]
        rw [← hrw, hf1]
        simp only [List.nil_append]
        simp [hrw, hrtE]
    · cases hrw : (rwFields dfl sel path fields d).1 with
      | nil =>
        have hrt : (rtSpec.rtFields dfl sel path fields d).1 = [] := hf3.mp hrw
        simp [hrt]
      | cons w ws =>
        have hrt : ¬(rtSpec.rtFields dfl sel path fields d).1 = [] := by
          intro hemp
          rw [hf3.mpr hemp] at hrw
          exact List.noConfusion hrw
        have hrtE : (rtSpec.rtFields dfl sel path fields d).1.isEmpty = false := by
          cases hc : (rtSpec.rtFields dfl sel path fields d).1 with
          | nil => exact absurd hc hrt
          | cons a as => rfl
        simp [hrw, hrtE]
termination_by s => (sizeOf s, 0, 1)

theorem pcFieldStep (dfl : List (String × JVal)) (sel : SelState) (path : List String)
    (k : String) (sk : JVal) (rest : List (String × JVal)) (data : JVal)
    (fs : List (String × JVal))
    (hna : notArr sk = true)
    (hwf : wfSchema.wfFields ((k, sk) :: rest) = true)
    (hfresh : ∀ p ∈ (k, sk) :: rest, ((fs.map Prod.fst).contains p.1) = false) :
    List.foldl segWriteP (.obj fs) (rwFields dfl sel path ((k, sk) :: rest) data).1 =
      .obj (fs ++ (rtSpec.rtFields dfl sel path ((k, sk) :: rest) data).1) ∧
    (rwFields dfl sel path ((k, sk) :: rest) data).2 =
      (rtSpec.rtFields dfl sel path ((k, sk) :: rest) data).2 ∧
    ((rwFields dfl sel path ((k, sk) :: rest) data).1 = [] ↔
      (rtSpec.rtFields dfl sel path ((k, sk) :: rest) data).1 = []) := by
  have hwf' := hwf
  rw [wfSchema.wfFields.eq_def] at hwf'
  simp only [Bool.and_eq_true, Bool.not_eq_true'] at hwf'
  obtain ⟨⟨⟨hk0, hkrest⟩, hwsk⟩, hwrest⟩ := hwf'
  have hre : rwFields dfl sel path ((k, sk) :: rest) data =
      (((relWrites dfl sel (path ++ [pathComp k]) sk (dataGet data k)).1.map
          fun (w : List Seg × JVal) => ((none, k) :: w.1, w.2)) ++
        (rwFields dfl (relWrites dfl sel (path ++ [pathComp k]) sk (dataGet data k)).2
          path rest data).1,
       (rwFields dfl (relWrites dfl sel (path ++ [pathComp k]) sk (dataGet data k)).2
          path rest data).2) := by
    cases sk
    case arr items => simp [notArr] at hna
    all_goals rw [rwFields.eq_def]
  have hrt : rtSpec.rtFields dfl sel path ((k, sk) :: rest) data =
      ((match (rtSpec dfl sel (path ++ [pathComp k]) sk (dataGet data k)).1 with
        | some v => (k, v) ::
            (rtSpec.rtFields dfl (rtSpec dfl sel (path ++ [pathComp k]) sk (dataGet data k)).2
              path rest data).1
        | none =>
            (rtSpec.rtFields dfl (rtSpec dfl sel (path ++ [pathComp k]) sk (dataGet data k)).2
              path rest data).1),
       (rtSpec.rtFields dfl (rtSpec dfl sel (path ++ [pathComp k]) sk (dataGet data k)).2
          path rest data).2) := by
    rw [rtSpec.rtFields.eq_def]
  rw [hre, hrt]
  simp only []
  have hkfresh : (fs.map Prod.fst).contains k = false := hfresh (k, sk) (by simp)
  obtain ⟨h1, h2, h3⟩ := pcItemNone sk (dataGet data k) sel dfl (path ++ [pathComp k]) fs k
    hna hwsk (objGet_fresh fs k hkfresh)
  rw [List.foldl_append, h1, h2]
  cases hr : (rtSpec dfl sel (path ++ [pathComp k]) sk (dataGet data k)).1 with
  | none =>
    have hE : (relWrites dfl sel (path ++ [pathComp k]) sk (dataGet data k)).1 = [] :=
      h3.mpr hr
    obtain ⟨g1, g2, g3⟩ := pcFields rest data
      ((rtSpec dfl sel (path ++ [pathComp k]) sk (dataGet data k)).2) fs dfl path hwrest
      (fun p hp => hfresh p (List.mem_cons_of_mem _ hp))
    refine ⟨?_, g2, ?_⟩
    · simp only [hr]
      exact g1
    · simp [hE, g3]
  | some v =>
    have hNE : ¬(relWrites dfl sel (path ++ [pathComp k]) sk (dataGet data k)).1 = [] := by
      intro he
      rw [h3.mp he] at hr
      exact Option.noConfusion hr
    have hset : objSet fs k v = fs ++ [(k, v)] := objSet_fresh fs k v hkfresh
    have hfresh' : ∀ p ∈ rest, (((fs ++ [(k, v)]).map Prod.fst).contains p.1) = false := by
      intro p hp
      rw [List.map_append]
      apply contains_append_false
      · exact hfresh p (List.mem_cons_of_mem _ hp)
      · have hpk : ¬p.1 = k :=
          contains_false_forall (rest.map (·.1)) k hkrest p.1 (List.mem_map_of_mem _ hp)
        simp only [List.map_cons, List.map_nil, List.contains_cons]
        simp [beq_eq_false_iff_ne, hpk]
    obtain ⟨g1, g2, g3⟩ := pcFields rest data
      ((rtSpec dfl sel (path ++ [pathComp k]) sk (dataGet data k)).2) (fs ++ [(k, v)]) dfl
      path hwrest hfresh'
    refine ⟨?_, g2, ?_⟩
    · simp only [hr]
      rw [hset, g1]
      simp
    · simp [hNE]
termination_by (sizeOf sk + sizeOf rest + 1, 0, 0)

theorem pcFields : ∀ (fields : List (String × JVal)) (data : JVal) (sel : SelState)
    (fs : List (String × JVal)) (dfl : List (String × JVal)) (path : List String),
    wfSchema.wfFields fields = true →
    (∀ p ∈ fields, ((fs.map Prod.fst).contains p.1) = false) →
    (List.foldl segWriteP (.obj fs) (rwFields dfl sel path fields data).1 =
      .obj (fs ++ (rtSpec.rtFields dfl sel path fields data).1) ∧
    (rwFields dfl sel path fields data).2 = (rtSpec.rtFields dfl sel path fields data).2 ∧
    ((rwFields dfl sel path fields data).1 = [] ↔
      (rtSpec.rtFields dfl sel path fields data).1 = []))
  | [], data, sel, fs, dfl, path, _, _ => by
    rw [rwFields.eq_def, rtSpec.rtFields.eq_def]
    exact ⟨by simp, by trivial, by simp⟩
  | (k, sk) :: rest, data, sel, fs, dfl, path, hwf, hfresh => by
    cases sk with
    | arr items =>
      have hwf' := hwf
      rw [wfSchema.wfFields.eq_def] at hwf'
      simp only [Bool.and_eq_true, Bool.not_eq_true'] at hwf'
      obtain ⟨⟨⟨hk0, hkrest⟩, hwsk⟩, hwrest⟩ := hwf'
      cases items with
      | nil =>
        obtain ⟨g1, g2, g3⟩ := pcFields rest data sel fs dfl path hwrest
          (fun p hp => hfresh p (List.mem_cons_of_mem _ hp))
        rw [rwFields.eq_def, rtSpec.rtFields.eq_def]
        simp only [rtSpec.eq_def]
        simp only [List.nil_append]
        exact ⟨g1, g2, g3⟩
      | cons i0 t =>
        rw [wfSchema.eq_def] at hwsk
        simp only [Bool.and_eq_true] at hwsk
        obtain ⟨hm, hwf0⟩ := hwsk
        have hna0 : notArr i0 = true := by
          cases i0
          case arr l => simp at hm
          all_goals rfl
        have hkfresh : (fs.map Prod.fst).contains k = false :=
          hfresh (k, .arr (i0 :: t)) (by simp)
        have hx0 : objInitArr (objGet k fs) = .arr [] := by
          rw [objGet_fresh fs k hkfresh]
          rfl
        rw [rwFields.eq_def, rtSpec.rtFields.eq_def]
        simp only [rtSpec.eq_def]
        have hetaN : (fun o : Option JVal => o.isNone) = Option.isNone := rfl
        simp only [hetaN]
        generalize hP : path ++ [pathComp k] ++ ["_"] = P
        obtain ⟨h1, h2, h3⟩ := pcEntries (dataEntries (dataGet data k)) i0 sel dfl
          P k fs [] 0 hna0 hwf0 hx0 (by simp)
        rw [List.foldl_append, h1, h2]
        cases hall : (rtSpec.rtEntries dfl sel P i0
            (dataEntries (dataGet data k))).1.all Option.isNone with
        | true =>
          obtain ⟨g1, g2, g3⟩ := pcFields rest data
            ((rtSpec.rtEntries dfl sel P i0 (dataEntries (dataGet data k))).2) fs dfl path
            hwrest (fun p hp => hfresh p (List.mem_cons_of_mem _ hp))
          have hE : (rwEntries dfl sel P k i0
              (dataEntries (dataGet data k)) 0).1 = [] := h3.mpr hall
          refine ⟨?_, g2, ?_⟩
          · simp [hall, g1]
          · simp [hall, hE, g3]
        | false =>
          have hbr := entriesArr_bridge
            ((rtSpec.rtEntries dfl sel P i0 (dataEntries (dataGet data k))).1) [] 0
            (by simp) hall
          simp at hbr
          have hNE : ¬(rwEntries dfl sel P k i0
              (dataEntries (dataGet data k)) 0).1 = [] := by
            intro he
            rw [h3.mp he] at hall
            exact Bool.noConfusion hall
          have hfresh' : ∀ p ∈ rest,
              (((fs ++ [(k, JVal.arr ((dropTrailingNones
                ((rtSpec.rtEntries dfl sel P i0
                  (dataEntries (dataGet data k))).1)).map (·.getD .undef)))]).map
                Prod.fst).contains p.1) = false := by
            intro p hp
            rw [List.map_append]
            apply contains_append_false
            · exact hfresh p (List.mem_cons_of_mem _ hp)
            · have hpk : ¬p.1 = k :=
                contains_false_forall (rest.map (·.1)) k hkrest p.1 (List.mem_map_of_mem _ hp)
              simp only [List.map_cons, List.map_nil, List.contains_cons]
              simp [beq_eq_false_iff_ne, hpk]
          obtain ⟨g1, g2, g3⟩ := pcFields rest data
            ((rtSpec.rtEntries dfl sel P i0 (dataEntries (dataGet data k))).2)
            (fs ++ [(k, JVal.arr ((dropTrailingNones
              ((rtSpec.rtEntries dfl sel P i0
                (dataEntries (dataGet data k))).1)).map (·.getD .undef)))]) dfl path
            hwrest hfresh'
          refine ⟨?_, g2, ?_⟩
          · simp only [hall]
            simp only [Bool.false_eq_true, if_false]
            rw [hbr]
            rw [objSet_fresh fs k _ hkfresh, g1]
            simp
          · simp [hall, hNE]
    | obj f2 => exact pcFieldStep dfl sel path k (.obj f2) rest data fs rfl hwf hfresh
    | str s0 => exact pcFieldStep dfl sel path k (.str s0) rest data fs rfl hwf hfresh
    | num q0 => exact pcFieldStep dfl sel path k (.num q0) rest data fs rfl hwf hfresh
    | null => exact pcFieldStep dfl sel path k .null rest data fs rfl hwf hfresh
    | undef => exact pcFieldStep dfl sel path k .undef rest data fs rfl hwf hfresh
termination_by fields => (sizeOf fields, 1, 0)

theorem pcEntries : ∀ (ds : List JVal) (i0 : JVal) (sel : SelState)
    (dfl : List (String × JVal)) (path : List String) (k : String)
    (fs : List (String × JVal)) (xs : List JVal) (j : Nat),
    notArr i0 = true → wfSchema i0 = true →
    objInitArr (objGet k fs) = .arr xs → xs.length ≤ j →
    (List.foldl segWriteP (.obj fs) (rwEntries dfl sel path k i0 ds j).1 =
      (match (rtSpec.rtEntries dfl sel path i0 ds).1.all Option.isNone with
       | true => .obj fs
       | false => .obj (objSet fs k
           (.arr (entriesArr xs j (rtSpec.rtEntries dfl sel path i0 ds).1)))) ∧
    (rwEntries dfl sel path k i0 ds j).2 = (rtSpec.rtEntries dfl sel path i0 ds).2 ∧
    ((rwEntries dfl sel path k i0 ds j).1 = [] ↔
      (rtSpec.rtEntries dfl sel path i0 ds).1.all Option.isNone = true))
  | [], i0, sel, dfl, path, k, fs, xs, j, hna, hwf, hx, hj => by
    rw [rwEntries.eq_def, rtSpec.rtEntries.eq_def]
    exact ⟨by simp, by trivial, by simp⟩
  | dj :: ds', i0, sel, dfl, path, k, fs, xs, j, hna, hwf, hx, hj => by
    rw [rwEntries.eq_def, rtSpec.rtEntries.eq_def]
    simp only []
    have hju : arrGet xs j = .undef := arrGet_undef_of_len_le xs j hj
    obtain ⟨h1, h2, h3⟩ := pcItemSome i0 dj sel dfl path fs k xs j hna hwf hx hju
    rw [List.foldl_append, h1, h2]
    cases hr : (rtSpec dfl sel path i0 dj).1 with
    | none =>
      have hE : (relWrites dfl sel path i0 dj).1 = [] := h3.mpr hr
      obtain ⟨g1, g2, g3⟩ := pcEntries ds' i0 ((rtSpec dfl sel path i0 dj).2) dfl path k fs
        xs (j + 1) hna hwf hx (by omega)
      refine ⟨?_, g2, ?_⟩
      · rw [g1]
        cases hall : (rtSpec.rtEntries dfl (rtSpec dfl sel path i0 dj).2 path i0 ds').1.all
            Option.isNone with
        | true => simp [hall]
        | false => simp [hall, entriesArr]
      · simp [hE, g3]
    | some v =>
      have hNE : ¬(relWrites dfl sel path i0 dj).1 = [] := by
        intro he
        rw [h3.mp he] at hr
        exact Option.noConfusion hr
      have hx' : objInitArr (objGet k (objSet fs k (.arr (arrSet xs j v)))) =
          .arr (arrSet xs j v) := by
        rw [objGet_objSet_self]
        rfl
      have hlen : (arrSet xs j v).length ≤ j + 1 := by
        rw [length_arrSet xs j v hj]
      obtain ⟨g1, g2, g3⟩ := pcEntries ds' i0 ((rtSpec dfl sel path i0 dj).2) dfl path k
        (objSet fs k (.arr (arrSet xs j v))) (arrSet xs j v) (j + 1) hna hwf hx' hlen
      refine ⟨?_, g2, ?_⟩
      · rw [g1]
        cases hall : (rtSpec.rtEntries dfl (rtSpec dfl sel path i0 dj).2 path i0 ds').1.all
            Option.isNone with
        | true => simp [hall, entriesArr, entriesArr_allNone _ _ _ hall]
        | false => simp [hall, entriesArr, objSet_objSet_self]
      · simp [hNE]
termination_by ds i0 => (sizeOf i0, 2, ds.length)

end

theorem absW_nil : ∀ ws : List (List Seg × JVal), absW [] ws = ws
  | [] => rfl
  | w :: ws => by simp [absW, List.nil_append]

theorem absW_append (γ : List Seg) (a b : List (List Seg × JVal)) :
    absW γ (a ++ b) = absW γ a ++ absW γ b := by
  simp [absW]

theorem absW_consMap (γ : List Seg) (x : Seg) (ws : List (List Seg × JVal)) :
    absW γ (ws.map fun w => (x :: w.1, w.2)) = absW (γ ++ [x]) ws := by
  simp [absW, List.map_map, Function.comp_def, List.append_assoc]

theorem walk_ctx : ∀ {c : List ChainEntry} {γ : List Seg}, CtxOk c γ →
    ∀ p : List Seg, List.foldl walkStep (p, none) c = (p ++ γ.reverse, none) := by
  intro c γ hok
  induction hok with
  | nil => intro p; simp
  | objStep tag idx k hok htag ih =>
    intro p
    have htag' : (tag == "LI") = false := by simpa [beq_eq_false_iff_ne] using htag
    simp only [List.foldl_cons]
    rw [show walkStep (p, none) ⟨some k, tag, idx⟩ = (p ++ [(none, k)], none) from by
      simp [walkStep, htag']]
    rw [ih (p ++ [(none, k)])]
    simp [List.reverse_append, List.append_assoc]
  | arrStep tagK idxC idxO idxK k j hok htagK ih =>
    intro p
    have htagK' : (tagK == "LI") = false := by simpa [beq_eq_false_iff_ne] using htagK
    simp only [List.foldl_cons]
    rw [show walkStep (p, none) ⟨none, "DETAILS", idxC⟩ = (p, none) from by
      simp [walkStep]]
    rw [show walkStep (p, none) ⟨none, "LI", j⟩ = (p, some j) from by
      simp [walkStep]]
    rw [show walkStep (p, some j) ⟨none, "OL", idxO⟩ = (p, some j) from by
      simp [walkStep]]
    rw [show walkStep (p, some j) ⟨some k, tagK, idxK⟩ = (p ++ [(some j, k)], none) from by
      simp [walkStep, htagK']]
    rw [ih (p ++ [(some j, k)])]
    simp [List.reverse_append, List.append_assoc]

theorem ctxOk_any : ∀ {c : List ChainEntry} {γ : List Seg}, CtxOk c γ → γ ≠ [] →
    c.any (·.key.isSome) = true := by
  intro c γ hok hγ
  induction hok with
  | nil => exact absurd rfl hγ
  | objStep tag idx k hok htag ih => simp
  | arrStep tagK idxC idxO idxK k j hok htagK ih => simp

theorem addInput_leaf (r : JVal) (tag : String) (i : Nat) (c : List ChainEntry)
    (γ : List Seg) (v : JVal) (hok : CtxOk c γ) (htag : (tag == "LI") = false) :
    addInput r (⟨none, tag, i⟩ :: c, v) = segWriteP r (γ, v) := by
  unfold addInput walkUp
  simp only [List.foldl_cons]
  rw [show walkStep ([], none) ⟨none, tag, i⟩ = (([] : List Seg), (none : Option Nat)) from by
    simp [walkStep, htag]]
  rw [walk_ctx hok []]
  simp only [List.nil_append, List.reverse_reverse]
  rfl

theorem selectValue_createSelect (opts : List (String × String)) (v : String) :
    inputValue (createSelect opts (some v)) = some (.str (selectedValue opts v)) := by
  simp only [createSelect, inputValue, Option.some.injEq, JVal.str.injEq]
  unfold selectValue selectedValue
  cases hc : (opts.map (·.1)).contains v with
  | false =>
    rw [createSelect_filter_none opts v hc]
    cases opts with
    | nil => rfl
    | cons od rest => simp [hc]
  | true =>
    have hall : ∀ o ∈ ((opts.map fun od =>
        (⟨od.1, if od.2 == "" then od.1 else od.1 ++ " - " ++ od.2,
          some od.1 == some v⟩ : SelOpt)).filter (·.chosen)), o.val = v := by
      intro o ho
      simp only [List.mem_filter, List.mem_map] at ho
      obtain ⟨⟨od, hod, rfl⟩, hch⟩ := ho
      simpa using hch
    have hmem : ∃ od ∈ opts, od.1 = v := by
      simpa using hc
    obtain ⟨od, hod, hodv⟩ := hmem
    have hin : (⟨od.1, if od.2 == "" then od.1 else od.1 ++ " - " ++ od.2,
        some od.1 == some v⟩ : SelOpt) ∈ ((opts.map fun od =>
        (⟨od.1, if od.2 == "" then od.1 else od.1 ++ " - " ++ od.2,
          some od.1 == some v⟩ : SelOpt)).filter (·.chosen)) := by
      rw [List.mem_filter]
      constructor
      · exact List.mem_map_of_mem _ hod
      · simp [hodv]
    have hne : ((opts.map fun od =>
        (⟨od.1, if od.2 == "" then od.1 else od.1 ++ " - " ++ od.2,
          some od.1 == some v⟩ : SelOpt)).filter (·.chosen)) ≠ [] := by
      intro he
      rw [he] at hin
      simp at hin
    have hlast := List.getLast?_eq_getLast_of_ne_nil hne
    simp only [hlast, hc, if_true]
    exact hall _ (List.getLast_mem hne)

theorem collect_nil (c : List ChainEntry) (i : Nat) : collectInputs c i [] = [] := rfl

theorem collect_keyed_el (c : List ChainEntry) (i : Nat) (tg hd : String) (k : String)
    (kids : List Dom) :
    collectInputs.collectOne c i (Dom.elt tg (some k) (Dom.elt hd none [] :: kids)) =
      collectInputs (⟨some k, tg, i⟩ :: c) 1 kids := by
  simp [collectInputs, collectInputs.collectOne]

theorem collect_li_entry (chOL : List ChainEntry) (j : Nat) (kids : List Dom) :
    collectInputs.collectOne chOL j (Dom.elt "LI" none [Dom.elt "DETAILS" none
      (Dom.elt "SUMMARY" none [] :: Dom.elt "BUTTON" none [] :: kids)]) =
      collectInputs (⟨none, "DETAILS", 0⟩ :: ⟨none, "LI", j⟩ :: chOL) 2 kids := by
  simp [collectInputs, collectInputs.collectOne]

theorem collect_shell_entries (l : List JVal) (c : List ChainEntry) (i : Nat) :
    collectInputs c i (l.map fun _ =>
      Dom.elt "LI" none [Dom.elt "DETAILS" none [Dom.elt "SUMMARY" none [],
        Dom.elt "BUTTON" none []]]) = [] := by
  induction l generalizing i with
  | nil => rfl
  | cons x l ih =>
    simp only [List.map_cons, collectInputs, collectInputs.collectOne,
      List.nil_append, List.append_nil]
    exact ih (i + 1)

theorem collectOne_select (c : List ChainEntry) (i : Nat) (so : List SelOpt)
    (hany : c.any (·.key.isSome) = true) :
    collectInputs.collectOne c i (.selectInput so) =
      [(⟨none, "SELECT", i⟩ :: c, .str (selectValue so))] := by
  simp [collectInputs.collectOne, hany, inputValue, Dom.tagOf]

theorem collectOne_createSelect (c : List ChainEntry) (i : Nat)
    (opts : List (String × String)) (v : String)
    (hany : c.any (·.key.isSome) = true) :
    collectInputs.collectOne c i (createSelect opts (some v)) =
      [(⟨none, "SELECT", i⟩ :: c, .str (selectedValue opts v))] := by
  rw [show createSelect opts (some v) = Dom.selectInput _ from rfl,
    collectOne_select _ _ _ hany]
  have hv := selectValue_createSelect opts v
  simp only [createSelect, inputValue, Option.some.injEq, JVal.str.injEq] at hv
  rw [hv]

theorem if_ne_LI (b : Bool) : (if b then "DIV" else "DETAILS") ≠ "LI" := by
  cases b <;> decide

mutual

theorem cbItem : ∀ (s d : JVal) (sel : SelState) (dfl : List (String × JVal))
    (path : List String) (c : List ChainEntry) (γ : List Seg) (i : Nat) (r : JVal),
    notArr s = true → wfSchema s = true → CtxOk c γ → γ ≠ [] →
    (List.foldl addInput r
        (collectInputs c i (createItemsRecursively dfl sel path s d).1) =
      List.foldl segWriteP r (absW γ (relWrites dfl sel path s d).1) ∧
    (createItemsRecursively dfl sel path s d).2 = (relWrites dfl sel path s d).2)
  | .str s0, d, sel, dfl, path, c, γ, i, r, hna, hwf, hok, hγ => by
    have hany : c.any (·.key.isSome) = true := ctxOk_any hok hγ
    rw [createItemsRecursively.eq_def, relWrites.eq_def]
    simp only []
    cases has : assocGet (pathToString path) sel with
    | some cfg =>
      rcases cfg with ⟨opts, dflt⟩
      simp only [has]
      refine ⟨?_, by trivial⟩
      cases hrq : allRqOptions (stringSelectParts sel (pathToString path) opts dflt d).1 with
      | true =>
        rw [if_pos rfl]
        simp only [collectInputs]
        rw [collectOne_createSelect c i _ _ hany]
        simp only [collectInputs.collectOne, collect_nil, List.append_nil, List.nil_append,
          List.singleton_append, List.foldl_cons, List.foldl_nil, absW, List.map_cons,
          List.map_nil]
        rw [addInput_leaf r "SELECT" i c γ _ hok (by decide)]
      | false =>
        rw [if_neg (by simp)]
        simp only [collectInputs]
        rw [collectOne_createSelect c i _ _ hany]
        simp only [collect_nil, List.append_nil, List.foldl_cons, List.foldl_nil, absW,
          List.map_cons, List.map_nil]
        rw [addInput_leaf r "SELECT" i c γ _ hok (by decide)]
    | none =>
      simp only [has]
      refine ⟨?_, by trivial⟩
      simp only [collectInputs, collectInputs.collectOne, hany, Dom.tagOf,
        inputValue, collect_nil, List.append_nil, Option.getD_some, absW,
        List.map_cons, List.map_nil]
      rw [if_pos trivial]
      simp only [List.foldl_cons, List.foldl_nil]
      rw [addInput_leaf r "INPUT" i c γ _ hok (by decide)]
  | .num q0, d, sel, dfl, path, c, γ, i, r, hna, hwf, hok, hγ => by
    have hany : c.any (·.key.isSome) = true := ctxOk_any hok hγ
    rw [createItemsRecursively.eq_def, relWrites.eq_def]
    simp only []
    refine ⟨?_, by trivial⟩
    simp only [collectInputs, collectInputs.collectOne, hany, Dom.tagOf,
      inputValue, collect_nil, List.append_nil, Option.getD_some, absW,
      List.map_cons, List.map_nil]
    rw [if_pos trivial]
    simp only [List.foldl_cons, List.foldl_nil]
    rw [addInput_leaf r "INPUT" i c γ _ hok (by decide)]
  | .null, d, sel, dfl, path, c, γ, i, r, hna, hwf, hok, hγ => by
    rw [createItemsRecursively.eq_def, relWrites.eq_def]
    exact ⟨by simp [collect_nil, absW], by trivial⟩
  | .undef, d, sel, dfl, path, c, γ, i, r, hna, hwf, hok, hγ => by
    rw [createItemsRecursively.eq_def, relWrites.eq_def]
    exact ⟨by simp [collect_nil, absW], by trivial⟩
  | .arr items, d, sel, dfl, path, c, γ, i, r, hna, hwf, hok, hγ => by
    simp [notArr] at hna
  | .obj fields, d, sel, dfl, path, c, γ, i, r, hna, hwf, hok, hγ => by
    rw [createItemsRecursively.eq_def, relWrites.eq_def]
    simp only []
    have hwfF : wfSchema.wfFields fields = true := by
      rw [wfSchema.eq_def] at hwf
      simpa using hwf
    exact cbFields fields d sel c γ i r dfl path hwfF hok
termination_by s => (sizeOf s, 0, 0)

theorem cbFieldStep (dfl : List (String × JVal)) (sel : SelState) (path : List String)
    (k : String) (sk : JVal) (rest : List (String × JVal)) (data : JVal)
    (c : List ChainEntry) (γ : List Seg) (i : Nat) (r : JVal)
    (hna : notArr sk = true)
    (hwf : wfSchema.wfFields ((k, sk) :: rest) = true)
    (hok : CtxOk c γ) :
    List.foldl addInput r (collectInputs c i
        (createItemsRecursively.buildFields dfl sel path ((k, sk) :: rest) data).1) =
      List.foldl segWriteP r (absW γ (rwFields dfl sel path ((k, sk) :: rest) data).1) ∧
    (createItemsRecursively.buildFields dfl sel path ((k, sk) :: rest) data).2 =
      (rwFields dfl sel path ((k, sk) :: rest) data).2 := by
  have hwf' := hwf
  rw [wfSchema.wfFields.eq_def] at hwf'
  simp only [Bool.and_eq_true, Bool.not_eq_true'] at hwf'
  obtain ⟨⟨⟨hk0, hkrest⟩, hwsk⟩, hwrest⟩ := hwf'
  have hre : rwFields dfl sel path ((k, sk) :: rest) data =
      (((relWrites dfl sel (path ++ [pathComp k]) sk (dataGet data k)).1.map
          fun (w : List Seg × JVal) => ((none, k) :: w.1, w.2)) ++
        (rwFields dfl (relWrites dfl sel (path ++ [pathComp k]) sk (dataGet data k)).2
          path rest data).1,
       (rwFields dfl (relWrites dfl sel (path ++ [pathComp k]) sk (dataGet data k)).2
          path rest data).2) := by
    cases sk
    case arr items => simp [notArr] at hna
    all_goals rw [rwFields.eq_def]
  rw [createItemsRecursively.buildFields.eq_def, hre]
  simp only [hk0, Bool.false_eq_true, if_false]
  obtain ⟨h1, h2⟩ := cbItem sk (dataGet data k) sel dfl (path ++ [pathComp k])
    (⟨some k, if (match sk with | JVal.str _ => true | JVal.num _ => true | _ => false)
        then "DIV" else "DETAILS", i⟩ :: c)
    (γ ++ [(none, k)]) 1 r hna hwsk
    (CtxOk.objStep _ i k hok (if_ne_LI _)) (by simp)
  obtain ⟨g1, g2⟩ := cbFields rest data
    ((relWrites dfl sel (path ++ [pathComp k]) sk (dataGet data k)).2) c γ (i + 1)
    (List.foldl segWriteP r (absW (γ ++ [(none, k)])
      (relWrites dfl sel (path ++ [pathComp k]) sk (dataGet data k)).1))
    dfl path hwrest hok
  constructor
  · simp only [collectInputs]
    rw [collect_keyed_el, List.foldl_append, h1, h2, g1]
    rw [absW_append, absW_consMap, List.foldl_append]
  · rw [h2]
    exact g2
termination_by (sizeOf sk + sizeOf rest + 1, 0, 0)

theorem cbFields : ∀ (fields : List (String × JVal)) (data : JVal) (sel : SelState)
    (c : List ChainEntry) (γ : List Seg) (i : Nat) (r : JVal)
    (dfl : List (String × JVal)) (path : List String),
    wfSchema.wfFields fields = true → CtxOk c γ →
    (List.foldl addInput r (collectInputs c i
        (createItemsRecursively.buildFields dfl sel path fields data).1) =
      List.foldl segWriteP r (absW γ (rwFields dfl sel path fields data).1) ∧
    (createItemsRecursively.buildFields dfl sel path fields data).2 =
      (rwFields dfl sel path fields data).2)
  | [], data, sel, c, γ, i, r, dfl, path, _, _ => by
    rw [createItemsRecursively.buildFields.eq_def, rwFields.eq_def]
    exact ⟨by simp [collect_nil, absW], by trivial⟩
  | (k, sk) :: rest, data, sel, c, γ, i, r, dfl, path, hwf, hok => by
    cases sk with
    | arr items =>
      have hwf' := hwf
      rw [wfSchema.wfFields.eq_def] at hwf'
      simp only [Bool.and_eq_true, Bool.not_eq_true'] at hwf'
      obtain ⟨⟨⟨hk0, hkrest⟩, hwsk⟩, hwrest⟩ := hwf'
      cases items with
      | nil =>
        rw [createItemsRecursively.buildFields.eq_def, rwFields.eq_def]
        simp only [hk0, Bool.false_eq_true, if_false]
        rw [createItemsRecursively.eq_def]
        simp only []
        obtain ⟨g1, g2⟩ := cbFields rest data sel c γ (i + 1) r dfl path hwrest hok
        constructor
        · simp only [collectInputs]
          rw [collect_keyed_el]
          simp only [collectInputs, collectInputs.collectOne, collect_shell_entries,
            collect_nil, List.append_nil, List.nil_append]
          exact g1
        · exact g2
      | cons i0 t =>
        rw [wfSchema.eq_def] at hwsk
        simp only [Bool.and_eq_true] at hwsk
        obtain ⟨hm, hwf0⟩ := hwsk
        have hna0 : notArr i0 = true := by
          cases i0
          case arr l => simp at hm
          all_goals rfl
        rw [createItemsRecursively.buildFields.eq_def, rwFields.eq_def]
        simp only [hk0, Bool.false_eq_true, if_false]
        rw [createItemsRecursively.eq_def]
        simp only []
        obtain ⟨h1, h2⟩ := cbEntries (dataEntries (dataGet data k)) i0 sel c γ k
          "DETAILS" 1 i 0 r dfl (path ++ [pathComp k] ++ ["_"]) hna0 hwf0 hok (by decide)
        obtain ⟨g1, g2⟩ := cbFields rest data
          ((rwEntries dfl sel (path ++ [pathComp k] ++ ["_"]) k i0
            (dataEntries (dataGet data k)) 0).2) c γ (i + 1)
          (List.foldl segWriteP r (absW γ (rwEntries dfl sel (path ++ [pathComp k] ++ ["_"])
            k i0 (dataEntries (dataGet data k)) 0).1))
          dfl path hwrest hok
        constructor
        · simp only [collectInputs]
          rw [collect_keyed_el]
          simp only [collectInputs, collectInputs.collectOne, collect_nil,
            List.append_nil, List.nil_append]
          rw [List.foldl_append, h1, h2, g1]
          rw [absW_append, List.foldl_append]
        · rw [h2]
          exact g2
    | obj f2 => exact cbFieldStep dfl sel path k (.obj f2) rest data c γ i r rfl hwf hok
    | str s0 => exact cbFieldStep dfl sel path k (.str s0) rest data c γ i r rfl hwf hok
    | num q0 => exact cbFieldStep dfl sel path k (.num q0) rest data c γ i r rfl hwf hok
    | null => exact cbFieldStep dfl sel path k .null rest data c γ i r rfl hwf hok
    | undef => exact cbFieldStep dfl sel path k .undef rest data c γ i r rfl hwf hok
termination_by fields => (sizeOf fields, 1, 0)

theorem cbEntries : ∀ (ds : List JVal) (i0 : JVal) (sel : SelState)
    (c : List ChainEntry) (γ : List Seg) (k : String) (tagK : String)
    (idxO idxK : Nat) (j : Nat) (r : JVal) (dfl : List (String × JVal))
    (path : List String),
    notArr i0 = true → wfSchema i0 = true → CtxOk c γ → tagK ≠ "LI" →
    (List.foldl addInput r (collectInputs
        (⟨none, "OL", idxO⟩ :: ⟨some k, tagK, idxK⟩ :: c) j
        (createItemsRecursively.buildEntries dfl sel path i0 ds).1) =
      List.foldl segWriteP r (absW γ (rwEntries dfl sel path k i0 ds j).1) ∧
    (createItemsRecursively.buildEntries dfl sel path i0 ds).2 =
      (rwEntries dfl sel path k i0 ds j).2)
  | [], i0, sel, c, γ, k, tagK, idxO, idxK, j, r, dfl, path, hna, hwf, hok, htagK => by
    rw [createItemsRecursively.buildEntries.eq_def, rwEntries.eq_def]
    exact ⟨by simp [collect_nil, absW], by trivial⟩
  | dj :: ds', i0, sel, c, γ, k, tagK, idxO, idxK, j, r, dfl, path, hna, hwf, hok,
      htagK => by
    rw [createItemsRecursively.buildEntries.eq_def, rwEntries.eq_def]
    simp only []
    obtain ⟨h1, h2⟩ := cbItem i0 dj sel dfl path
      (⟨none, "DETAILS", 0⟩ :: ⟨none, "LI", j⟩ :: ⟨none, "OL", idxO⟩ ::
        ⟨some k, tagK, idxK⟩ :: c)
      (γ ++ [(some j, k)]) 2 r hna hwf
      (CtxOk.arrStep tagK 0 idxO idxK k j hok htagK) (by simp)
    obtain ⟨g1, g2⟩ := cbEntries ds' i0 ((relWrites dfl sel path i0 dj).2) c γ k tagK
      idxO idxK (j + 1)
      (List.foldl segWriteP r (absW (γ ++ [(some j, k)]) (relWrites dfl sel path i0 dj).1))
      dfl path hna hwf hok htagK
    constructor
    · simp only [collectInputs]
      rw [collect_li_entry, List.foldl_append, h1, h2, g1]
      rw [absW_append, absW_consMap, List.foldl_append]
    · rw [h2]
      exact g2
termination_by ds i0 => (sizeOf i0, 2, ds.length)

end

/-- Master correspondence: serializing the tree built from a well-formed
object schema equals the schema-indexed specification `rtSpecTop`, by
composing the collect-level correspondence (built DOM chains decode to the
relative writes) with the write-level one (folding the writes assembles
`rtSpec`'s object). -/
theorem roundtrip_build_serialize (dfl : List (String × JVal)) (sel : SelState)
    (fields : List (String × JVal)) (data : JVal)
    (hwf : wfSchema (.obj fields) = true) :
    allInputsToConfigObject (createItemsRecursively dfl sel [] (.obj fields) data).1 =
      rtSpecTop dfl sel (.obj fields) data := by
  have hwfF : wfSchema.wfFields fields = true := by
    rw [wfSchema.eq_def] at hwf
    simpa using hwf
  unfold allInputsToConfigObject
  rw [createItemsRecursively.eq_def]
  simp only []
  obtain ⟨h1, h2⟩ := cbFields fields data sel [] [] 0 (.obj []) dfl [] hwfF CtxOk.nil
  rw [h1, absW_nil]
  obtain ⟨g1, g2, g3⟩ := pcFields fields data sel [] dfl [] hwfF (by simp)
  rw [g1]
  simp only [List.nil_append]
  unfold rtSpecTop
  rw [rtSpec.eq_def]
  simp only []
  cases hE : (rtSpec.rtFields dfl sel [] fields data).1.isEmpty with
  | true =>
    rw [List.isEmpty_iff] at hE
    simp [hE]
  | false => simp [hE]

mutual

theorem rtSome : ∀ (s d : JVal) (sel : SelState) (dfl : List (String × JVal))
    (path : List String), alwaysInput s = true → (rtSpec dfl sel path s d).1 ≠ none
  | .str s0, d, sel, dfl, path, ha => by
    rw [rtSpec.eq_def]
    simp only []
    cases has : assocGet (pathToString path) sel with
    | some cfg =>
      rcases cfg with ⟨opts, dflt⟩
      simp
    | none => simp
  | .num q0, d, sel, dfl, path, ha => by
    rw [rtSpec.eq_def]
    simp
  | .obj fields, d, sel, dfl, path, ha => by
    rw [rtSpec.eq_def]
    simp only []
    have hsf : alwaysInput.someFieldInput fields = true := by
      rw [alwaysInput.eq_def] at ha
      simpa using ha
    have hne := rtFieldsSome fields d sel dfl path hsf
    have hE : (rtSpec.rtFields dfl sel path fields d).1.isEmpty = false := by
      cases hc : (rtSpec.rtFields dfl sel path fields d).1 with
      | nil => exact absurd hc hne
      | cons a as => rfl
    simp [hE]
  | .arr items, d, sel, dfl, path, ha => by
    rw [alwaysInput.eq_def] at ha
    simp at ha
  | .null, d, sel, dfl, path, ha => by
    rw [alwaysInput.eq_def] at ha
    simp at ha
  | .undef, d, sel, dfl, path, ha => by
    rw [alwaysInput.eq_def] at ha
    simp at ha
termination_by s => (sizeOf s, 0)

theorem rtFieldsSome : ∀ (fields : List (String × JVal)) (d : JVal) (sel : SelState)
    (dfl : List (String × JVal)) (path : List String),
    alwaysInput.someFieldInput fields = true →
    (rtSpec.rtFields dfl sel path fields d).1 ≠ []
  | [], d, sel, dfl, path, h => by
    rw [alwaysInput.someFieldInput.eq_def] at h
    simp at h
  | (k, sk) :: rest, d, sel, dfl, path, h => by
    rw [alwaysInput.someFieldInput.eq_def] at h
    simp only [Bool.or_eq_true, Bool.and_eq_true, Bool.not_eq_true'] at h
    rw [rtSpec.rtFields.eq_def]
    simp only []
    rcases h with ⟨hk, hsk⟩ | hrest
    · have hs := rtSome sk (dataGet d k) sel dfl (path ++ [pathComp k]) hsk
      cases hr : (rtSpec dfl sel (path ++ [pathComp k]) sk (dataGet d k)).1 with
      | none => exact absurd hr hs
      | some v => simp [hr]
    · have ho := rtFieldsSome rest d
        ((rtSpec dfl sel (path ++ [pathComp k]) sk (dataGet d k)).2) dfl path hrest
      cases hr : (rtSpec dfl sel (path ++ [pathComp k]) sk (dataGet d k)).1 with
      | none => simpa [hr] using ho
      | some v => simp [hr]
termination_by fields => (sizeOf fields, 1)

end

theorem mem_dropTrailingNones {e : Option JVal} {es : List (Option JVal)}
    (h : e ∈ dropTrailingNones es) : e ∈ es := by
  unfold dropTrailingNones at h
  rw [List.mem_reverse] at h
  have h2 := (List.dropWhile_sublist (fun o : Option JVal => o.isNone)).subset h
  rwa [List.mem_reverse] at h2

theorem holeL_map_good (l : List (Option JVal))
    (h : ∀ e ∈ l, ∃ v, e = some v ∧ hasHole v = false ∧ v ≠ .undef) :
    hasHole.holeL (l.map fun o => o.getD .undef) = false := by
  induction l with
  | nil => rfl
  | cons e l ih =>
    obtain ⟨v, he, hv, hvu⟩ := h e (by simp)
    subst he
    have hrest := ih (fun e hel => h e (by simp [hel]))
    cases v
    case undef => exact absurd rfl hvu
    all_goals
      simp only [List.map_cons, Option.getD_some, hasHole.holeL]
      rw [hrest]
      simpa using hv

mutual

theorem nhItem : ∀ (s d : JVal) (sel : SelState) (dfl : List (String × JVal))
    (path : List String), wfSchema s = true → denseLists s = true →
    ∀ v, (rtSpec dfl sel path s d).1 = some v → hasHole v = false ∧ v ≠ .undef
  | .str s0, d, sel, dfl, path, hwf, hdl, v, hv => by
    rw [rtSpec.eq_def] at hv
    simp only [] at hv
    cases has : assocGet (pathToString path) sel with
    | some cfg =>
      rcases cfg with ⟨opts, dflt⟩
      rw [has] at hv
      simp only [Option.some.injEq] at hv
      subst hv
      unfold valOrNull
      split
      · exact ⟨by rw [hasHole.eq_def], by simp⟩
      · exact ⟨by rw [hasHole.eq_def], by simp⟩
    | none =>
      rw [has] at hv
      simp only [Option.some.injEq] at hv
      subst hv
      unfold valOrNull
      split
      · exact ⟨by rw [hasHole.eq_def], by simp⟩
      · exact ⟨by rw [hasHole.eq_def], by simp⟩
  | .num q0, d, sel, dfl, path, hwf, hdl, v, hv => by
    rw [rtSpec.eq_def] at hv
    simp only [Option.some.injEq] at hv
    subst hv
    unfold valOrNull
    split
    · exact ⟨by rw [hasHole.eq_def], by simp⟩
    · exact ⟨by rw [hasHole.eq_def], by simp⟩
  | .null, d, sel, dfl, path, hwf, hdl, v, hv => by
    rw [rtSpec.eq_def] at hv
    simp at hv
  | .undef, d, sel, dfl, path, hwf, hdl, v, hv => by
    rw [rtSpec.eq_def] at hv
    simp at hv
  | .arr [], d, sel, dfl, path, hwf, hdl, v, hv => by
    rw [rtSpec.eq_def] at hv
    simp at hv
  | .arr (i0 :: t), d, sel, dfl, path, hwf, hdl, v, hv => by
    rw [wfSchema.eq_def] at hwf
    simp only [Bool.and_eq_true] at hwf
    obtain ⟨hm, hwf0⟩ := hwf
    rw [denseLists.eq_def] at hdl
    simp only [Bool.and_eq_true] at hdl
    obtain ⟨hai, hdl0⟩ := hdl
    rw [rtSpec.eq_def] at hv
    simp only [] at hv
    cases hall : (rtSpec.rtEntries dfl sel (path ++ ["_"]) i0 (dataEntries d)).1.all
        (fun o => o.isNone) with
    | true =>
      rw [hall] at hv
      simp at hv
    | false =>
      rw [hall] at hv
      simp only [Bool.false_eq_true, if_false, Option.some.injEq] at hv
      subst hv
      refine ⟨?_, by simp⟩
      rw [hasHole.eq_def]
      refine holeL_map_good _ ?_
      intro e he
      exact nhEntries (dataEntries d) i0 sel dfl (path ++ ["_"]) hai hwf0 hdl0 e
        (mem_dropTrailingNones he)
  | .obj fields, d, sel, dfl, path, hwf, hdl, v, hv => by
    have hwfF : wfSchema.wfFields fields = true := by
      rw [wfSchema.eq_def] at hwf
      simpa using hwf
    have hdF : denseLists.denseF fields = true := by
      rw [denseLists.eq_def] at hdl
      simpa using hdl
    rw [rtSpec.eq_def] at hv
    simp only [] at hv
    cases hE : (rtSpec.rtFields dfl sel path fields d).1.isEmpty with
    | true =>
      rw [hE] at hv
      simp at hv
    | false =>
      rw [hE] at hv
      simp only [Bool.false_eq_true, if_false, Option.some.injEq] at hv
      subst hv
      refine ⟨?_, by simp⟩
      rw [hasHole.eq_def]
      exact nhFields fields d sel dfl path hwfF hdF
termination_by s => (sizeOf s, 0, 0)

theorem nhFields : ∀ (fields : List (String × JVal)) (d : JVal) (sel : SelState)
    (dfl : List (String × JVal)) (path : List String),
    wfSchema.wfFields fields = true → denseLists.denseF fields = true →
    hasHole.holeF (rtSpec.rtFields dfl sel path fields d).1 = false
  | [], d, sel, dfl, path, _, _ => by
    rw [rtSpec.rtFields.eq_def]
    rw [hasHole.holeF.eq_def]
  | (k, sk) :: rest, d, sel, dfl, path, hwf, hdl => by
    rw [wfSchema.wfFields.eq_def] at hwf
    simp only [Bool.and_eq_true, Bool.not_eq_true'] at hwf
    obtain ⟨⟨⟨hk0, hkrest⟩, hwsk⟩, hwrest⟩ := hwf
    rw [denseLists.denseF.eq_def] at hdl
    simp only [Bool.and_eq_true] at hdl
    obtain ⟨hdsk, hdrest⟩ := hdl
    rw [rtSpec.rtFields.eq_def]
    simp only []
    cases hr : (rtSpec dfl sel (path ++ [pathComp k]) sk (dataGet d k)).1 with
    | none =>
      simp only [hr]
      exact nhFields rest d ((rtSpec dfl sel (path ++ [pathComp k]) sk (dataGet d k)).2)
        dfl path hwrest hdrest
    | some v =>
      obtain ⟨hv, hvu⟩ := nhItem sk (dataGet d k) sel dfl (path ++ [pathComp k])
        hwsk hdsk v hr
      simp only [hr]
      rw [hasHole.holeF.eq_def]
      simp only [hv, Bool.false_or]
      exact nhFields rest d ((rtSpec dfl sel (path ++ [pathComp k]) sk (dataGet d k)).2)
        dfl path hwrest hdrest
termination_by fields => (sizeOf fields, 1, 0)

theorem nhEntries : ∀ (ds : List JVal) (i0 : JVal) (sel : SelState)
    (dfl : List (String × JVal)) (path : List String),
    alwaysInput i0 = true → wfSchema i0 = true → denseLists i0 = true →
    ∀ e ∈ (rtSpec.rtEntries dfl sel path i0 ds).1,
      ∃ v, e = some v ∧ hasHole v = false ∧ v ≠ .undef
  | [], i0, sel, dfl, path, ha, hwf, hdl, e, he => by
    rw [rtSpec.rtEntries.eq_def] at he
    simp at he
  | d :: ds', i0, sel, dfl, path, ha, hwf, hdl, e, he => by
    rw [rtSpec.rtEntries.eq_def] at he
    simp only [List.mem_cons] at he
    rcases he with he | he
    · subst he
      cases hr : (rtSpec dfl sel path i0 d).1 with
      | none => exact absurd hr (rtSome i0 d sel dfl path ha)
      | some v =>
        obtain ⟨h1, h2⟩ := nhItem i0 d sel dfl path hwf hdl v hr
        exact ⟨v, rfl, h1, h2⟩
    · exact nhEntries ds' i0 ((rtSpec dfl sel path i0 d).2) dfl path ha hwf hdl e he
termination_by ds i0 => (sizeOf i0, 2, ds.length)

end

set_option maxRecDepth 4000

/-- C1 (counterexample): the round trip does *not* hold for every schema:
for a list nested directly inside a list, the serializer's upward walk
overwrites the outer entry index with the inner one, so building from a
conforming configuration and serializing back collapses the nested array
(`\x7bk: [["x","y"]]\x7d` comes back as `\x7bk: ["y"]\x7d`), instead of
reproducing the value at its schema path. -/
theorem roundtrip_nested_list_collapses :
    conf cxSchema1 cxData1 = true ∧
    allInputsToConfigObject (createItemsRecursively [] [] [] cxSchema1 cxData1).1 =
      .obj [("k", .arr [.str "y"])] ∧
    rtSpecTop [] [] cxSchema1 cxData1 =
      .obj [("k", .arr [.arr [.str "x", .str "y"]])] ∧
    (JVal.obj [("k", .arr [.str "y"])] ≠ .obj [("k", .arr [.arr [.str "x", .str "y"]])]) := by
  refine ⟨by unfold cxSchema1 cxData1; simp +decide [conf, conf.confFields,
    conf.confEntries, objGet, nodupKeys], ?_, ?_, by simp⟩
  · unfold cxSchema1 cxData1 allInputsToConfigObject
    simp +decide [createItemsRecursively, createItemsRecursively.buildFields,
      createItemsRecursively.buildEntries, collectInputs, collectInputs.collectOne,
      addInput, walkUp, walkStep, patchLast, descendWrite, leafWrite, objSet, objGet,
      arrSet, arrGet, valOrNull, truthy, inputValue, Dom.tagOf, dataGet, dataEntries,
      pathComp, pathToString, assocGet, freeTextValue, truthyStr, jsDisplay]
  · unfold cxSchema1 cxData1 rtSpecTop
    simp +decide [rtSpec, rtSpec.rtFields, rtSpec.rtEntries, dataGet, dataEntries,
      pathComp, pathToString, assocGet, freeTextValue, truthyStr, jsDisplay, valOrNull,
      truthy, dropTrailingNones, objGet]

/-- C1 (amended): for every *well-formed* schema (object root, non-empty
distinct keys, no list directly inside a list) and every configuration
conforming to it, building the form tree from the schema merged with the
configuration and serializing the untouched form back yields exactly the
nested object `rtSpecTop` that places each rendered field's value at its
schema path: the serializer's position-inferred paths agree with the
schema. -/
theorem composer_roundtrip (dfl : List (String × JVal)) (sel : SelState)
    (fields : List (String × JVal)) (data : JVal)
    (hwf : wfSchema (.obj fields) = true)
    (hconf : conf (.obj fields) data = true) :
    allInputsToConfigObject (createItemsRecursively dfl sel [] (.obj fields) data).1 =
      rtSpecTop dfl sel (.obj fields) data :=
  roundtrip_build_serialize dfl sel fields data hwf

theorem composer_roundtrip_witness :
    wfSchema (.obj [("k", .str "s")]) = true ∧
    conf (.obj [("k", .str "s")]) (.obj [("k", .str "v")]) = true ∧
    allInputsToConfigObject (createItemsRecursively [] [] [] (.obj [("k", .str "s")])
      (.obj [("k", .str "v")])).1 =
      rtSpecTop [] [] (.obj [("k", .str "s")]) (.obj [("k", .str "v")]) :=
  ⟨by simp +decide [wfSchema, wfSchema.wfFields],
   by simp +decide [conf, conf.confFields, nodupKeys, objGet],
   composer_roundtrip [] [] _ _ (by simp +decide [wfSchema, wfSchema.wfFields])
     (by simp +decide [conf, conf.confFields, nodupKeys, objGet])⟩

/-- C9 (counterexample): serialized arrays are *not* always dense: a list
entry whose element schema renders no input for it (here an object whose
only field is a list, empty in the configuration) contributes nothing, and
a later entry writes at its sibling-count index, leaving `undefined` holes
below it. -/
theorem list_entry_hole :
    conf cxSchema2 cxData2 = true ∧ wfSchema cxSchema2 = true ∧
    hasHole (allInputsToConfigObject
      (createItemsRecursively [] [] [] cxSchema2 cxData2).1) = true := by
  refine ⟨by unfold cxSchema2 cxData2; simp +decide [conf, conf.confFields,
    conf.confEntries, objGet, nodupKeys],
    by unfold cxSchema2; simp +decide [wfSchema, wfSchema.wfFields], ?_⟩
  unfold cxSchema2 cxData2 allInputsToConfigObject
  simp +decide [createItemsRecursively, createItemsRecursively.buildFields,
    createItemsRecursively.buildEntries, collectInputs, collectInputs.collectOne,
    addInput, walkUp, walkStep, patchLast, descendWrite, leafWrite, objSet, objGet,
    arrSet, arrGet, valOrNull, truthy, inputValue, Dom.tagOf, dataGet, dataEntries,
    pathComp, pathToString, assocGet, freeTextValue, truthyStr, jsDisplay,
    hasHole, hasHole.holeF, hasHole.holeL]

/-- C9 (amended): when every list element schema is guaranteed to render at
least one input per entry (`denseLists`), the serialized object contains no
array hole: each entry's index is recomputed as its preceding-sibling count
at serialization time, so the populated indices of every array are exactly
`0..n-1` for its `n` entries. -/
theorem serialized_arrays_dense (dfl : List (String × JVal)) (sel : SelState)
    (fields : List (String × JVal)) (data : JVal)
    (hwf : wfSchema (.obj fields) = true)
    (hconf : conf (.obj fields) data = true)
    (hdl : denseLists (.obj fields) = true) :
    hasHole (allInputsToConfigObject
      (createItemsRecursively dfl sel [] (.obj fields) data).1) = false := by
  rw [roundtrip_build_serialize dfl sel fields data hwf]
  unfold rtSpecTop
  cases hr : (rtSpec dfl sel [] (.obj fields) data).1 with
  | none =>
    simp only [Option.getD_none]
    rw [hasHole.eq_def]
    simp only []
    rw [hasHole.holeF.eq_def]
  | some v =>
    simp only [Option.getD_some]
    exact (nhItem (.obj fields) data sel dfl [] hwf hdl v hr).1

theorem serialized_arrays_dense_witness :
    wfSchema (.obj [("k", .arr [.str "s"])]) = true ∧
    conf (.obj [("k", .arr [.str "s"])]) (.obj [("k", .arr [.str "x", .str "y"])]) = true ∧
    denseLists (.obj [("k", .arr [.str "s"])]) = true ∧
    hasHole (allInputsToConfigObject (createItemsRecursively [] [] []
      (.obj [("k", .arr [.str "s"])]) (.obj [("k", .arr [.str "x", .str "y"])])).1) =
      false :=
  ⟨by simp +decide [wfSchema, wfSchema.wfFields],
   by simp +decide [conf, conf.confFields, conf.confEntries, nodupKeys, objGet],
   by simp +decide [denseLists, denseLists.denseF, alwaysInput,
     alwaysInput.someFieldInput],
   serialized_arrays_dense [] [] _ _
     (by simp +decide [wfSchema, wfSchema.wfFields])
     (by simp +decide [conf, conf.confFields, conf.confEntries, nodupKeys, objGet])
     (by simp +decide [denseLists, denseLists.denseF, alwaysInput,
       alwaysInput.someFieldInput])⟩
